import Mathlib

set_option maxRecDepth 20000

/-!
Verification development for the validator-set management and proposer
selection core of an Ostracon-derived BFT consensus node.

The repository snapshot contains the test suite of the core
(types/validator_set_test.go) but not the implementation file itself, so
the operations below are modelled from the specification document:
pure functions stand for the Go methods, Go in-place mutation becomes
explicit state passing, and 64-bit machine integers are modelled as Int
with the overflow-checked operations (safeAdd, safeMul, safeAddClip,
safeSubClip) spelled out exactly as the specification describes them.
Go native truncated division is written Int.tdiv, the Euclidean division
performed by big.Int is written with the / and % notation of Int.
Every modelled operation is validated below against the concrete
expectations recorded in the test suite under src/types.
-/

/-- Largest value of a signed 64-bit integer. -/
def MaxInt64 : Int := 9223372036854775807

/-- Smallest value of a signed 64-bit integer. -/
def MinInt64 : Int := -9223372036854775808

/-- Modelled from the spec: MaxTotalStakingPower = MaxInt64 / 8. -/
def MaxTotalStakingPower : Int := 1152921504606846975

/-- Modelled from the spec: the priority window is 2 x total staking power. -/
def PriorityWindowSizeFactor : Int := 2

/-- Modelled from the spec: overflow-checked addition of two int64 values.
Returns (-1, true) when the mathematical sum leaves the int64 range. -/
def safeAdd (a b : Int) : Int × Bool :=
  if 0 < b ∧ MaxInt64 - b < a then (-1, true)
  else if b < 0 ∧ a < MinInt64 - b then (-1, true)
  else (a + b, false)

/-- Modelled from the spec: overflow-checked subtraction of two int64 values. -/
def safeSub (a b : Int) : Int × Bool :=
  if 0 < b ∧ a < MinInt64 + b then (-1, true)
  else if b < 0 ∧ MaxInt64 + b < a then (-1, true)
  else (a - b, false)

/-- Modelled from the spec: clipping addition; on overflow the result is
clipped to MaxInt64 or MinInt64 according to the sign of the second operand. -/
def safeAddClip (a b : Int) : Int :=
  match safeAdd a b with
  | (c, false) => c
  | (_, true) => if b < 0 then MinInt64 else MaxInt64

/-- Modelled from the spec: clipping subtraction. -/
def safeSubClip (a b : Int) : Int :=
  match safeSub a b with
  | (c, false) => c
  | (_, true) => if 0 < b then MinInt64 else MaxInt64

/-- Modelled from the spec: overflow-checked multiplication of two int64
values; on overflow it returns (0, true), matching the test vectors in
src/types/validator_set_test.go (TestSafeMul). -/
def safeMul (a b : Int) : Int × Bool :=
  if a = 0 ∨ b = 0 then (0, false)
  else
    let absA := |a|
    let absB := |b|
    if Int.tdiv MaxInt64 absB < absA then (0, true)
    else (a * b, false)

-- Test vectors from TestSafeAddClip, TestSafeSubClip and TestSafeMul.
example : safeAddClip MaxInt64 10 = MaxInt64 := by decide
example : safeAddClip MaxInt64 MaxInt64 = MaxInt64 := by decide
example : safeAddClip MinInt64 (-10) = MinInt64 := by decide
example : safeSubClip MinInt64 10 = MinInt64 := by decide
example : safeSubClip MinInt64 MinInt64 = 0 := by decide
example : safeSubClip MinInt64 MaxInt64 = MinInt64 := by decide
example : safeSubClip MaxInt64 (-10) = MaxInt64 := by decide
example : safeMul 0 0 = (0, false) := by decide
example : safeMul 1 0 = (0, false) := by decide
example : safeMul 2 3 = (6, false) := by decide
example : safeMul 2 (-3) = (-6, false) := by decide
example : safeMul (-2) (-3) = (6, false) := by decide
example : safeMul (-2) 3 = (-6, false) := by decide
example : safeMul MaxInt64 1 = (MaxInt64, false) := by decide
example : safeMul (Int.tdiv MaxInt64 2) 2 = (MaxInt64 - 1, false) := by decide
example : safeMul (Int.tdiv MaxInt64 2) 3 = (0, true) := by decide
example : safeMul MaxInt64 2 = (0, true) := by decide

/-! ### SHA-256, executable over byte lists (bytes are Nat below 256) -/

/-- Reduction of a Nat to a 32-bit word. -/
def w32 (x : Nat) : Nat := x % 4294967296

/-- Right rotation of a 32-bit word. -/
def rotr32 (n x : Nat) : Nat := w32 ((x >>> n) ||| (x <<< (32 - n)))

/-- SHA-256 big sigma 0. -/
def bsig0 (x : Nat) : Nat := (rotr32 2 x) ^^^ (rotr32 13 x) ^^^ (rotr32 22 x)

/-- SHA-256 big sigma 1. -/
def bsig1 (x : Nat) : Nat := (rotr32 6 x) ^^^ (rotr32 11 x) ^^^ (rotr32 25 x)

/-- SHA-256 small sigma 0. -/
def ssig0 (x : Nat) : Nat := (rotr32 7 x) ^^^ (rotr32 18 x) ^^^ (x >>> 3)

/-- SHA-256 small sigma 1. -/
def ssig1 (x : Nat) : Nat := (rotr32 17 x) ^^^ (rotr32 19 x) ^^^ (x >>> 10)

/-- SHA-256 choice function. -/
def sha2Ch (x y z : Nat) : Nat := (x &&& y) ^^^ ((x ^^^ 4294967295) &&& z)

/-- SHA-256 majority function. -/
def sha2Maj (x y z : Nat) : Nat := (x &&& y) ^^^ (x &&& z) ^^^ (y &&& z)

/-- SHA-256 round constants. -/
def sha256K : List Nat :=
  [1116352408, 1899447441, 3049323471, 3921009573, 961987163, 1508970993,
   2453635748, 2870763221, 3624381080, 310598401, 607225278, 1426881987,
   1925078388, 2162078206, 2614888103, 3248222580, 3835390401, 4022224774,
   264347078, 604807628, 770255983, 1249150122, 1555081692, 1996064986,
   2554220882, 2821834349, 2952996808, 3210313671, 3336571891, 3584528711,
   113926993, 338241895, 666307205, 773529912, 1294757372, 1396182291,
   1695183700, 1986661051, 2177026350, 2456956037, 2730485921, 2820302411,
   3259730800, 3345764771, 3516065817, 3600352804, 4094571909, 275423344,
   430227734, 506948616, 659060556, 883997877, 958139571, 1322822218,
   1537002063, 1747873779, 1955562222, 2024104815, 2227730452, 2361852424,
   2428436474, 2756734187, 3204031479, 3329325298]

/-- SHA-256 initial hash state. -/
def sha256H0 : List Nat :=
  [1779033703, 3144134277, 1013904242, 2773480762,
   1359893119, 2600822924, 528734635, 1541459225]

/-- Big-endian byte serialization of a Nat into a fixed number of bytes. -/
def beBytes : Nat → Nat → List Nat
  | 0, _ => []
  | n + 1, v => beBytes n (v / 256) ++ [v % 256]

/-- Big-endian interpretation of a byte list as a Nat. -/
def beNat (l : List Nat) : Nat := l.foldl (fun a b => a * 256 + b) 0

/-- Grouping of a 64-byte block into sixteen 32-bit big-endian words. -/
def toWords : List Nat → List Nat
  | b0 :: b1 :: b2 :: b3 :: rest => (((b0 * 256 + b1) * 256 + b2) * 256 + b3) :: toWords rest
  | _ => []

/-- SHA-256 message schedule extension, appending the given number of words. -/
def extendW : List Nat → Nat → List Nat
  | w, 0 => w
  | w, n + 1 =>
    let i := w.length
    let nw := w32 (ssig1 (w.getD (i - 2) 0) + w.getD (i - 7) 0 +
                   ssig0 (w.getD (i - 15) 0) + w.getD (i - 16) 0)
    extendW (w ++ [nw]) n

/-- One SHA-256 compression round over the 8-word state. -/
def sha2Round (st : List Nat) (kw : Nat × Nat) : List Nat :=
  match st with
  | [a, b, c, d, e, f, g, h] =>
    let t1 := w32 (h + bsig1 e + sha2Ch e f g + kw.1 + kw.2)
    let t2 := w32 (bsig0 a + sha2Maj a b c)
    [w32 (t1 + t2), a, b, c, w32 (d + t1), e, f, g]
  | other => other

/-- SHA-256 compression of one 64-byte block into the running state. -/
def sha2Compress (st : List Nat) (block : List Nat) : List Nat :=
  let ws := extendW (toWords block) 48
  let st2 := (List.zip sha256K ws).foldl sha2Round st
  List.zipWith (fun a b => w32 (a + b)) st st2

/-- Splitting of a byte list into 64-byte chunks, with explicit fuel so that
the definition reduces by structural recursion. -/
def chunks64F : Nat → List Nat → List (List Nat)
  | _, [] => []
  | 0, _ => []
  | fuel + 1, l => l.take 64 :: chunks64F fuel (l.drop 64)

/-- Splitting of a byte list into 64-byte chunks. -/
def chunks64 (l : List Nat) : List (List Nat) := chunks64F l.length l

/-- SHA-256 padding of a message. -/
def sha256Pad (msg : List Nat) : List Nat :=
  let padLen := (64 + 56 - ((msg.length + 1) % 64)) % 64
  msg ++ [0x80] ++ List.replicate padLen 0 ++ beBytes 8 (msg.length * 8)

/-- SHA-256 digest of a byte list, as a 32-byte list. -/
def sha256 (msg : List Nat) : List Nat :=
  let final := (chunks64 (sha256Pad msg)).foldl sha2Compress sha256H0
  final.foldr (fun wrd acc => beBytes 4 wrd ++ acc) []

example : sha256 [] =
    [0xe3, 0xb0, 0xc4, 0x42, 0x98, 0xfc, 0x1c, 0x14, 0x9a, 0xfb, 0xf4, 0xc8, 0x99, 0x6f, 0xb9,
     0x24, 0x27, 0xae, 0x41, 0xe4, 0x64, 0x9b, 0x93, 0x4c, 0xa4, 0x95, 0x99, 0x1b, 0x78, 0x52,
     0xb8, 0x55] := by decide

/-! ### Data model -/

/-- A public key, modelled as an opaque numeric identifier standing for the
key bytes of one of the supported schemes. -/
structure PubKey where
  keyId : Nat
deriving DecidableEq, Repr

/-- A validator: address, public key, staking power and proposer priority.
Staking power and proposer priority are signed 64-bit integers in the Go
code, modelled as Int with the overflow-checked operations made explicit. -/
structure Validator where
  address : List Nat
  pubKey : PubKey
  stakingPower : Int
  proposerPriority : Int
deriving DecidableEq, Repr

/-- A validator set: the ordered member list plus the cached total staking
power (field totalStakingPower of the Go struct). -/
structure ValidatorSet where
  validators : List Validator
  totalStakingPower : Int
deriving DecidableEq, Repr

/-- Strict lexicographic byte-list order, as Go bytes.Compare < 0. -/
def lexLt : List Nat → List Nat → Bool
  | [], [] => false
  | [], _ :: _ => true
  | _ :: _, [] => false
  | a :: as, b :: bs => if a < b then true else if b < a then false else lexLt as bs

/-- Reflexive lexicographic byte-list order, as Go bytes.Compare <= 0. -/
def lexLe (a b : List Nat) : Bool := ! lexLt b a

/-- Address order on validators used to keep change lists sorted. -/
def AddrLe (v w : Validator) : Prop := lexLe v.address w.address = true

instance : DecidableRel AddrLe := fun v w => by unfold AddrLe; infer_instance

/-- Validator order by staking power descending with ascending address as
tie break, the canonical order of the stored member list. -/
def PowLe (v w : Validator) : Prop :=
  w.stakingPower < v.stakingPower ∨
    (v.stakingPower = w.stakingPower ∧ lexLe v.address w.address = true)

instance : DecidableRel PowLe := fun v w => by unfold PowLe; infer_instance

/-- Address lookup in a member list (GetByAddress). -/
def lookupAddr : List Validator → List Nat → Option Validator
  | [], _ => none
  | v :: vs, a => if v.address = a then some v else lookupAddr vs a

/-- GetByAddress on a validator set, returning the member if present. -/
def getByAddress (vals : ValidatorSet) (a : List Nat) : Option Validator :=
  lookupAddr vals.validators a

/-- HasAddress on a validator set. -/
def hasAddress (vals : ValidatorSet) (a : List Nat) : Bool :=
  (getByAddress vals a).isSome

/-- Size of a validator set. -/
def size (vals : ValidatorSet) : Nat := vals.validators.length

/-- Clipped sum of the staking powers of a member list, as the Go method
updateTotalStakingPower computes it. -/
def computeTotal (l : List Validator) : Int :=
  l.foldl (fun acc v => safeAddClip acc v.stakingPower) 0

/-- TotalStakingPower: the cached value, recomputed when the cache is zero. -/
def TotalStakingPower (vals : ValidatorSet) : Int :=
  if vals.totalStakingPower = 0 then computeTotal vals.validators else vals.totalStakingPower

/-- Priorities of a member list. -/
def prioritiesOf (l : List Validator) : List Int := l.map (·.proposerPriority)

/-- Sum of the proposer priorities of a member list (computed exactly, as
the Go code does through big.Int). -/
def sumPriorities (l : List Validator) : Int := (prioritiesOf l).sum

/-- Largest proposer priority of a member list (0 for the empty list, which
the Go code treats as a programmer error). -/
def maxPriority : List Validator → Int
  | [] => 0
  | [v] => v.proposerPriority
  | v :: w :: rest => max v.proposerPriority (maxPriority (w :: rest))

/-- Smallest proposer priority of a member list. -/
def minPriority : List Validator → Int
  | [] => 0
  | [v] => v.proposerPriority
  | v :: w :: rest => min v.proposerPriority (minPriority (w :: rest))

/-- Modelled from the spec: computeMaxMinPriorityDiff returns max minus min
via clipping arithmetic. -/
def computeMaxMinPriorityDiffL (l : List Validator) : Int :=
  safeSubClip (maxPriority l) (minPriority l)

/-- Modelled from the spec: computeAvgProposerPriority sums the priorities
exactly (big.Int) and divides by the member count; big.Int division is
Euclidean, which for a positive divisor is floor division. -/
def computeAvgProposerPriority (l : List Validator) : Int :=
  sumPriorities l / (l.length : Int)

/-- Modelled from the spec: RescalePriorities divides every priority by
ceil(diff / diffMax) (Go native division truncates toward zero) whenever the
clipped max minus min distance exceeds diffMax. -/
def RescalePriorities (l : List Validator) (diffMax : Int) : List Validator :=
  let diff := computeMaxMinPriorityDiffL l
  let ratio := Int.tdiv (diff + diffMax - 1) diffMax
  if diffMax < diff then
    l.map (fun v => { v with proposerPriority := Int.tdiv v.proposerPriority ratio })
  else l

/-- Modelled from the spec: shiftByAvgProposerPriority subtracts the floor
average from every priority, with clipping subtraction. -/
def shiftByAvgProposerPriority (l : List Validator) : List Validator :=
  let avg := computeAvgProposerPriority l
  l.map (fun v => { v with proposerPriority := safeSubClip v.proposerPriority avg })

/-- Choice between the current best validator and a candidate: higher
priority wins, ties are broken by smaller address (CompareProposerPriority). -/
def betterMostest (v best : Validator) : Bool :=
  if best.proposerPriority < v.proposerPriority then true
  else if v.proposerPriority = best.proposerPriority then lexLt v.address best.address
  else false

/-- Scan for the index of the validator with the largest proposer priority. -/
def mostestAux : List Validator → Validator → Nat → Nat → Nat
  | [], _, bi, _ => bi
  | v :: vs, best, bi, ci =>
    if betterMostest v best then mostestAux vs v ci (ci + 1) else mostestAux vs best bi (ci + 1)

/-- Index of the validator with the largest proposer priority (address as
tie break), 0 for the empty list. -/
def mostestIdx : List Validator → Nat
  | [] => 0
  | v :: vs => mostestAux vs v 0 1

/-- Subtraction of the total staking power from the priority of the member
at the given index. -/
def decAt : List Validator → Nat → Int → List Validator
  | [], _, _ => []
  | v :: vs, 0, t => { v with proposerPriority := safeSubClip v.proposerPriority t } :: vs
  | v :: vs, i + 1, t => v :: decAt vs i t

/-- One iteration of incrementProposerPriority: add the staking power to
every priority (clipped), then subtract the total from the most prioritized
member. -/
def incrementStep (total : Int) (l : List Validator) : List Validator :=
  let added := l.map (fun v => { v with proposerPriority := safeAddClip v.proposerPriority v.stakingPower })
  decAt added (mostestIdx added) total

/-- Iterated incrementProposerPriority. -/
def incrementLoop (total : Int) : Nat → List Validator → List Validator
  | 0, l => l
  | k + 1, l => incrementLoop total k (incrementStep total l)

/-- Modelled from the spec: IncrementProposerPriority rescales priorities to
the window, centers them by the average, and then runs the given number of
increment iterations. The Go method panics on an empty set and on a
non-positive times argument; the model returns the set unchanged on an
empty set, and a zero times argument performs no increment iteration. -/
def IncrementProposerPriority (vals : ValidatorSet) (times : Nat) : ValidatorSet :=
  if vals.validators = [] then vals
  else
    let total := TotalStakingPower vals
    let l1 := RescalePriorities vals.validators (PriorityWindowSizeFactor * total)
    let l2 := shiftByAvgProposerPriority l1
    ⟨incrementLoop total times l2, vals.totalStakingPower⟩

/-! ### The change-set engine -/

/-- Errors surfaced by the change-set engine. -/
inductive VsError where
  | duplicate
  | invalidPower
  | notPresent
  | emptySet
  | overflow
  | deletesNotAllowed
deriving DecidableEq, Repr

/-- Walk over the address-sorted change list: rejects duplicate addresses
and negative powers, and splits the changes into updates (positive power)
and removals (zero power). -/
def classifyLoop : Option (List Nat) → List Validator → Except VsError (List Validator × List Validator)
  | _, [] => .ok ([], [])
  | prev, c :: rest =>
    if some c.address = prev then .error .duplicate
    else if c.stakingPower < 0 then .error .invalidPower
    else
      match classifyLoop (some c.address) rest with
      | .error e => .error e
      | .ok (ups, dels) =>
        if c.stakingPower = 0 then .ok (ups, c :: dels) else .ok (c :: ups, dels)

/-- Modelled from the spec: processChanges sorts a copy of the change list
by address and classifies each change. -/
def processChanges (changes : List Validator) : Except VsError (List Validator × List Validator) :=
  classifyLoop none (List.insertionSort AddrLe changes)

/-- Modelled from the spec: verifyRemovals rejects removal of an absent
member and returns the total staking power being removed. -/
def verifyRemovals : List Validator → ValidatorSet → Except VsError Int
  | [], _ => .ok 0
  | d :: ds, vals =>
    match getByAddress vals d.address with
    | none => .error .notPresent
    | some v =>
      match verifyRemovals ds vals with
      | .error e => .error e
      | .ok r => .ok (v.stakingPower + r)

/-- Power delta of one update against the current set. -/
def deltaOf (vals : ValidatorSet) (u : Validator) : Int :=
  match getByAddress vals u.address with
  | some v => u.stakingPower - v.stakingPower
  | none => u.stakingPower

/-- Update order by increasing power delta, so that decreases are applied
first and no spurious overflow is reported. -/
def DeltaLe (vals : ValidatorSet) (u w : Validator) : Prop :=
  deltaOf vals u ≤ deltaOf vals w

instance (vals : ValidatorSet) : DecidableRel (DeltaLe vals) :=
  fun u w => by unfold DeltaLe; infer_instance

/-- Partial-sum loop of verifyUpdates: each partial sum uses safeAdd and is
rejected when it overflows or exceeds MaxTotalStakingPower. -/
def verifyUpdatesLoop (vals : ValidatorSet) : Int → List Validator → Except VsError Int
  | acc, [] => .ok acc
  | acc, u :: us =>
    match safeAdd acc (deltaOf vals u) with
    | (_, true) => .error .overflow
    | (s, false) =>
      if MaxTotalStakingPower < s then .error .overflow else verifyUpdatesLoop vals s us

/-- Modelled from the spec: verifyUpdates computes the tentative total
staking power, applying update deltas in increasing order starting from the
current total minus the removed power. -/
def verifyUpdates (ups : List Validator) (vals : ValidatorSet) (removed : Int) : Except VsError Int :=
  verifyUpdatesLoop vals (TotalStakingPower vals - removed) (List.insertionSort (DeltaLe vals) ups)

/-- Count of updates whose address is absent from the set. -/
def numNewValidators (ups : List Validator) (vals : ValidatorSet) : Nat :=
  (ups.filter (fun u => (getByAddress vals u.address).isNone)).length

/-- Modelled from the spec: computeNewPriorities gives every added validator
the initial priority -(tp + tp/8) and keeps the current priority of every
updated member, ignoring the priority field of the change record. -/
def computeNewPriorities (ups : List Validator) (vals : ValidatorSet) (tp : Int) : List Validator :=
  ups.map (fun u =>
    match getByAddress vals u.address with
    | some v => { u with proposerPriority := v.proposerPriority }
    | none => { u with proposerPriority := -(tp + Int.tdiv tp 8) })

/-- Membership of an address in a change list. -/
def hasAddrIn (dels : List Validator) (a : List Nat) : Bool :=
  dels.any (fun d => decide (d.address = a))

/-- Modelled from the spec: applyRemovals drops the removed members,
preserving the order of survivors. -/
def applyRemovals (l : List Validator) (dels : List Validator) : List Validator :=
  l.filter (fun v => ! hasAddrIn dels v.address)

/-- Merge of the address-sorted member list with the address-sorted update
list; on an address match the update record replaces the member. -/
def mergeByAddr : List Validator → List Validator → List Validator
  | [], ups => ups
  | b :: bs, ups =>
    let pre := ups.takeWhile (fun u => lexLt u.address b.address)
    match ups.dropWhile (fun u => lexLt u.address b.address) with
    | [] => pre ++ b :: mergeByAddr bs []
    | u :: us =>
      if u.address = b.address then pre ++ u :: mergeByAddr bs us
      else pre ++ b :: mergeByAddr bs (u :: us)

/-- Modelled from the spec: applyUpdates walks the current list (sorted by
address) and the update list in lockstep, preserving address-sorted order. -/
def applyUpdates (l : List Validator) (ups : List Validator) : List Validator :=
  mergeByAddr (List.insertionSort AddrLe l) ups

/-- Modelled from the spec: UpdateWithChangeSet with explicit state passing.
The Go method mutates the set in place after all validation passes; the
model returns the final state together with the returned error, the state
being the input set on every error path exactly as the Go control flow
returns before any mutation. -/
def updateWithChangeSetRun (vals : ValidatorSet) (changes : List Validator) (allowDeletes : Bool) :
    ValidatorSet × Option VsError :=
  if changes = [] then (vals, none)
  else
    match processChanges changes with
    | .error e => (vals, some e)
    | .ok (ups, dels) =>
      if allowDeletes = false ∧ dels ≠ [] then (vals, some .deletesNotAllowed)
      else
        match verifyRemovals dels vals with
        | .error e => (vals, some e)
        | .ok removed =>
          match verifyUpdates ups vals removed with
          | .error e => (vals, some e)
          | .ok tp =>
            if numNewValidators ups vals = 0 ∧ vals.validators.length = dels.length then
              (vals, some .emptySet)
            else
              let ups2 := computeNewPriorities ups vals tp
              let l1 := applyRemovals vals.validators dels
              let l2 := applyUpdates l1 ups2
              let cache := computeTotal l2
              let l3 := List.insertionSort PowLe l2
              let l4 := RescalePriorities l3 (PriorityWindowSizeFactor * cache)
              let l5 := shiftByAvgProposerPriority l4
              (⟨l5, cache⟩, none)

/-- UpdateWithChangeSet: the public operation, removals allowed. -/
def UpdateWithChangeSet (vals : ValidatorSet) (changes : List Validator) :
    ValidatorSet × Option VsError :=
  updateWithChangeSetRun vals changes true

/-- The empty validator set. -/
def emptyValidatorSet : ValidatorSet := ⟨[], 0⟩

/-- Modelled from the spec: NewValidatorSet applies the initial validator
list as a change set to the empty set (removals not allowed, panics on any
error, hence Option) and then increments the proposer priority once when
the list is non-empty. -/
def NewValidatorSet (l : List Validator) : Option ValidatorSet :=
  match updateWithChangeSetRun emptyValidatorSet l false with
  | (_, some _) => none
  | (s, none) => some (if s.validators = [] then s else IncrementProposerPriority s 1)

/-! ### Proposer selection -/

/-- Unsigned 64-bit representation of an int64 height (two's complement). -/
def u64OfInt (h : Int) : Nat := (h % (18446744073709551616 : Int)).toNat

/-- Unsigned 32-bit representation of an int32 round (two's complement). -/
def u32OfInt (r : Int) : Nat := (r % (4294967296 : Int)).toNat

/-- Modelled from the spec: the selection mix is the SHA-256 digest of the
seed, the big-endian 8-byte height and the big-endian 4-byte round. -/
def selectionMix (seed : List Nat) (height round : Int) : List Nat :=
  sha256 (seed ++ beBytes 8 (u64OfInt height) ++ beBytes 4 (u32OfInt round))

/-- Modelled from the spec: the first 8 bytes of the mix interpreted as an
unsigned 64-bit integer. -/
def selectionNumber (seed : List Nat) (height round : Int) : Nat :=
  beNat ((selectionMix seed height round).take 8)

/-- Accumulating stake scan: the first validator whose running sum of
staking power exceeds the target. -/
def scanTarget : List Validator → Int → Int → Option Validator
  | [], _, _ => none
  | v :: vs, cum, target =>
    if target < cum + v.stakingPower then some v else scanTarget vs (cum + v.stakingPower) target

/-- A placeholder validator (the Go method panics on an empty set). -/
def dummyValidator : Validator := ⟨[], ⟨0⟩, 0, 0⟩

/-- Modelled from the spec: SelectProposer is a stateless deterministic
function of the seed, height and round: it reduces the selection number
modulo the total staking power and walks the validators in address-sorted
order accumulating stake; it never reads ProposerPriority. -/
def SelectProposer (vals : ValidatorSet) (seed : List Nat) (height round : Int) : Validator :=
  let candidates := List.insertionSort AddrLe vals.validators
  let total := TotalStakingPower vals
  let target := (selectionNumber seed height round % total.toNat : Nat)
  (scanTarget candidates 0 (target : Int)).getD dummyValidator

/-! ### Hash and wire form -/

/-- RFC-6962 style leaf hash. -/
def leafHash (b : List Nat) : List Nat := sha256 (0 :: b)

/-- RFC-6962 style inner hash. -/
def innerHash (l r : List Nat) : List Nat := sha256 (1 :: (l ++ r))

/-- Largest power of two strictly below n (for n at least 2), with fuel. -/
def splitPointF : Nat → Nat → Nat → Nat
  | 0, _, k => k
  | fuel + 1, n, k => if 2 * k < n then splitPointF fuel n (2 * k) else k

/-- Split position of the Merkle recursion. -/
def splitPoint (n : Nat) : Nat := splitPointF n n 1

/-- Merkle root of a list of byte strings, with fuel so that the definition
reduces structurally; the root of the empty list is SHA-256 of the empty
string. -/
def merkleRootF : Nat → List (List Nat) → List Nat
  | _, [] => sha256 []
  | _, [x] => leafHash x
  | 0, _ => []
  | fuel + 1, items =>
    let s := splitPoint items.length
    innerHash (merkleRootF fuel (items.take s)) (merkleRootF fuel (items.drop s))

/-- Merkle root of a list of byte strings. -/
def merkleRoot (items : List (List Nat)) : List Nat := merkleRootF items.length items

/-- Modelled from the spec: the canonical validator encoding hashed into a
Merkle leaf covers the public key and the staking power and excludes the
proposer priority. -/
def validatorLeafBytes (v : Validator) : List Nat :=
  beBytes 8 v.pubKey.keyId ++ beBytes 8 (u64OfInt v.stakingPower)

/-- Modelled from the spec: the validator-set hash is a Merkle root over the
per-member leaf hashes of the address-sorted member list. -/
def validatorSetHash (vals : ValidatorSet) : List Nat :=
  merkleRoot ((List.insertionSort AddrLe vals.validators).map validatorLeafBytes)

/-- Wire form of a validator set (canonical proto message, modelled as a
record carrying the same data). -/
structure ValidatorSetProto where
  validators : List Validator
  totalStakingPower : Int
deriving DecidableEq, Repr

/-- ToProto. -/
def toProto (vals : ValidatorSet) : ValidatorSetProto :=
  ⟨vals.validators, vals.totalStakingPower⟩

/-- FromProto; a proto message with an empty member list is rejected, as in
TestValidatorSetProtoBuf. -/
def fromProto (p : ValidatorSetProto) : Option ValidatorSet :=
  if p.validators = [] then none else some ⟨p.validators, p.totalStakingPower⟩

/-! ### Commit verification -/

/-- A block identifier: block hash plus part-set header. -/
structure BlockID where
  hash : List Nat
  partSetTotal : Nat
  partSetHash : List Nat
deriving DecidableEq, Repr

/-- Canonical vote content covered by a precommit signature: chain id, vote
type (true for precommit), height, round, block id and timestamp. This
models VoteSignBytes symbolically: the encoding is injective, so signed
byte strings are identified with their content. -/
structure CanonicalVote where
  chainID : String
  isPrecommit : Bool
  height : Int
  round : Int
  blockID : BlockID
  timestamp : Nat
deriving DecidableEq, Repr

/-- A signature, modelled symbolically as the signing key identifier
together with the signed content. -/
structure Signature where
  signer : Nat
  signed : CanonicalVote
deriving DecidableEq, Repr

/-- Signing under a private key (the key identifier doubles as the private
key in the symbolic model). -/
def signVote (priv : Nat) (m : CanonicalVote) : Signature := ⟨priv, m⟩

/-- Signature verification: valid exactly when the signature was produced
by the key of this public key over exactly these bytes. -/
def verifySignature (pk : PubKey) (m : CanonicalVote) (sig : Signature) : Bool :=
  decide (sig.signer = pk.keyId) && decide (sig.signed = m)

/-- Block id flags of a commit signature. -/
inductive BlockIDFlag where
  | flagAbsent
  | flagCommit
  | flagNil
deriving DecidableEq, Repr

/-- One commit signature: flag, validator address, timestamp, signature. -/
structure CommitSig where
  flag : BlockIDFlag
  validatorAddress : List Nat
  timestamp : Nat
  signature : Option Signature
deriving DecidableEq, Repr

/-- A commit: height, round, block id, one commit signature per member. -/
structure Commit where
  height : Int
  round : Int
  blockID : BlockID
  signatures : List CommitSig
deriving DecidableEq, Repr

/-- Tally loop of VerifyCommit: for every commit-flagged signature, the
member at that index must carry the same address, the signature must verify
over the canonical vote of this commit, and its stake is accumulated with
safeAdd. -/
def tallyLoop (chainID : String) (commit : Commit) :
    List Validator → List CommitSig → Int → Except String Int
  | [], [], tally => .ok tally
  | [], _ :: _, _ => .error "signature count above set size"
  | _ :: _, [], _ => .error "signature count below set size"
  | v :: vs, cs :: css, tally =>
    match cs.flag with
    | .flagCommit =>
      if cs.validatorAddress ≠ v.address then .error "wrong validator address"
      else
        match cs.signature with
        | none => .error "missing signature"
        | some sig =>
          if verifySignature v.pubKey
              ⟨chainID, true, commit.height, commit.round, commit.blockID, cs.timestamp⟩ sig then
            match safeAdd tally v.stakingPower with
            | (_, true) => .error "tally overflow"
            | (s, false) => tallyLoop chainID commit vs css s
          else .error "invalid signature"
    | _ => tallyLoop chainID commit vs css tally

/-- Modelled from the spec: VerifyCommit checks the structural equalities
(height, block id, signature count), verifies every commit-flagged
signature, and requires the tallied stake to strictly exceed two thirds of
the total staking power. -/
def VerifyCommit (vals : ValidatorSet) (chainID : String) (blockID : BlockID) (height : Int)
    (commit : Commit) : Except String Unit :=
  if commit.height ≠ height then .error "wrong commit height"
  else if commit.blockID ≠ blockID then .error "wrong block id"
  else if commit.signatures.length ≠ vals.validators.length then .error "wrong signature count"
  else
    match tallyLoop chainID commit vals.validators commit.signatures 0 with
    | .error e => .error e
    | .ok tally =>
      if Int.tdiv (TotalStakingPower vals * 2) 3 < tally then .ok ()
      else .error "not enough staking power for quorum"

/-- Message of the overflow error of the light-client fraction check. -/
def lightTrustingOverflowMsg : String :=
  "int64 overflow while calculating the needed staking power"

/-- Tally loop of VerifyCommitLightTrusting: every valid commit-flagged
signature whose signer appears in the trusted set adds that stake. -/
def lightTallyLoop (vals : ValidatorSet) (chainID : String) (commit : Commit) :
    List CommitSig → Int → Int → Bool
  | [], _, _ => false
  | cs :: css, tally, needed =>
    match cs.flag with
    | .flagCommit =>
      match lookupAddr vals.validators cs.validatorAddress with
      | none => lightTallyLoop vals chainID commit css tally needed
      | some v =>
        match cs.signature with
        | none => lightTallyLoop vals chainID commit css tally needed
        | some sig =>
          if verifySignature v.pubKey
              ⟨chainID, true, commit.height, commit.round, commit.blockID, cs.timestamp⟩ sig then
            let tally2 := tally + v.stakingPower
            if needed < tally2 then true else lightTallyLoop vals chainID commit css tally2 needed
          else lightTallyLoop vals chainID commit css tally needed
    | _ => lightTallyLoop vals chainID commit css tally needed

/-- Modelled from the spec: VerifyCommitLightTrusting multiplies the trusted
total staking power by the fraction numerator with safeMul, failing with an
error whose message contains the string "int64 overflow" on overflow, and
otherwise succeeds when the tallied overlapping stake strictly exceeds the
needed share. -/
def VerifyCommitLightTrusting (vals : ValidatorSet) (chainID : String) (commit : Commit)
    (fracNum fracDen : Int) : Except String Unit :=
  if fracDen = 0 then .error "trust level has zero denominator"
  else
    match safeMul (TotalStakingPower vals) fracNum with
    | (_, true) => .error lightTrustingOverflowMsg
    | (p, false) =>
      let needed := Int.tdiv p fracDen
      if lightTallyLoop vals chainID commit commit.signatures 0 needed then .ok ()
      else .error "not enough trusted staking power"

/-! ### Validation of the model against the test suite under src/types -/

/-- Test address for the name vN used across the test suite. -/
def tAddr (n : Nat) : List Nat := [118, 48 + n]

/-- Test validator with address vN and the given staking power. -/
def tVal (n : Nat) (p : Int) : Validator := ⟨tAddr n, ⟨n⟩, p, 0⟩

/-- Projection of a set onto the (address, staking power) pairs the tests
compare (toTestValList). -/
def corePowers (vals : ValidatorSet) : List (List Nat × Int) :=
  vals.validators.map (fun v => (v.address, v.stakingPower))

-- TestValSetUpdatesBasicTestsExecute, cases 1 to 5 (case 0 has no changes).
example :
    (NewValidatorSet [tVal 1 10, tVal 2 10]).map
      (fun s => corePowers (UpdateWithChangeSet s [tVal 2 22, tVal 1 11]).1) =
    some [(tAddr 2, 22), (tAddr 1, 11)] := by decide
example :
    (NewValidatorSet [tVal 2 20, tVal 1 10]).map
      (fun s => corePowers (UpdateWithChangeSet s [tVal 4 40, tVal 3 30]).1) =
    some [(tAddr 4, 40), (tAddr 3, 30), (tAddr 2, 20), (tAddr 1, 10)] := by decide
example :
    (NewValidatorSet [tVal 3 20, tVal 1 10]).map
      (fun s => corePowers (UpdateWithChangeSet s [tVal 2 30]).1) =
    some [(tAddr 2, 30), (tAddr 3, 20), (tAddr 1, 10)] := by decide
example :
    (NewValidatorSet [tVal 3 20, tVal 2 10]).map
      (fun s => corePowers (UpdateWithChangeSet s [tVal 1 30]).1) =
    some [(tAddr 1, 30), (tAddr 3, 20), (tAddr 2, 10)] := by decide
example :
    (NewValidatorSet [tVal 3 30, tVal 2 20, tVal 1 10]).map
      (fun s => corePowers (UpdateWithChangeSet s [tVal 2 0]).1) =
    some [(tAddr 3, 30), (tAddr 1, 10)] := by decide

-- TestValSetApplyUpdatesTestsExecute (applyUpdates is called directly).
example :
    (NewValidatorSet [tVal 4 44, tVal 5 55]).map
      (fun s => (applyUpdates s.validators [tVal 1 11]).map (fun v => (v.address, v.stakingPower))) =
    some [(tAddr 1, 11), (tAddr 4, 44), (tAddr 5, 55)] := by decide
example :
    (NewValidatorSet [tVal 4 44, tVal 6 66, tVal 9 99]).map
      (fun s => (applyUpdates s.validators [tVal 5 55, tVal 7 77, tVal 8 88]).map
        (fun v => (v.address, v.stakingPower))) =
    some [(tAddr 4, 44), (tAddr 5, 55), (tAddr 6, 66), (tAddr 7, 77), (tAddr 8, 88), (tAddr 9, 99)]
    := by decide
example :
    (NewValidatorSet [tVal 1 111, tVal 2 22]).map
      (fun s => (applyUpdates s.validators [tVal 1 11, tVal 3 33, tVal 4 44]).map
        (fun v => (v.address, v.stakingPower))) =
    some [(tAddr 1, 11), (tAddr 2, 22), (tAddr 3, 33), (tAddr 4, 44)] := by decide

-- TestValSetUpdatesDuplicateEntries and TestValSetUpdatesOtherErrors: a few
-- representative error cases, each leaving the set unchanged.
example :
    (NewValidatorSet [tVal 1 10, tVal 2 10]).map
      (fun s => (UpdateWithChangeSet s [tVal 1 11, tVal 1 22]).2) =
    some (some VsError.duplicate) := by decide
example :
    (NewValidatorSet [tVal 1 10, tVal 2 10]).map
      (fun s => (UpdateWithChangeSet s [tVal 1 (-123)]).2) =
    some (some VsError.invalidPower) := by decide
example :
    (NewValidatorSet [tVal 1 10, tVal 2 10]).map
      (fun s => (UpdateWithChangeSet s [tVal 3 0]).2) =
    some (some VsError.notPresent) := by decide
example :
    (NewValidatorSet [tVal 1 10, tVal 2 20, tVal 3 30]).map
      (fun s => (UpdateWithChangeSet s [tVal 1 0, tVal 2 0, tVal 3 0]).2) =
    some (some VsError.emptySet) := by decide
example :
    (NewValidatorSet [tVal 1 10, tVal 2 10]).map
      (fun s => (UpdateWithChangeSet s [tVal 1 9223372036854775807]).2) =
    some (some VsError.overflow) := by decide

-- TestValSetUpdateOverflowRelated, case 2: the updates must be applied in
-- the order of the power change.
example :
    (NewValidatorSet [tVal 2 (MaxTotalStakingPower - 1), tVal 1 1]).map
      (fun s => corePowers
        (UpdateWithChangeSet s
          [tVal 1 (Int.tdiv MaxTotalStakingPower 2 - 1), tVal 2 (Int.tdiv MaxTotalStakingPower 2)]).1) =
    some [(tAddr 2, Int.tdiv MaxTotalStakingPower 2), (tAddr 1, Int.tdiv MaxTotalStakingPower 2 - 1)]
    := by decide

-- TestValSetUpdatePriorityOrderTests, cases 0 to 2: expected final lists.
example :
    (NewValidatorSet [tVal 3 1000, tVal 1 1, tVal 2 1]).map
      (fun s => corePowers (UpdateWithChangeSet s [tVal 3 0]).1) =
    some [(tAddr 1, 1), (tAddr 2, 1)] := by decide
example :
    (NewValidatorSet [tVal 3 1000, tVal 2 2, tVal 1 1]).map
      (fun s => corePowers (UpdateWithChangeSet s [tVal 3 0, tVal 2 1, tVal 5 50, tVal 4 40]).1) =
    some [(tAddr 5, 50), (tAddr 4, 40), (tAddr 1, 1), (tAddr 2, 1)] := by decide

-- TestAvgProposerPriority test vectors.
example :
    computeAvgProposerPriority
      [⟨[0], ⟨0⟩, 0, 0⟩, ⟨[1], ⟨1⟩, 0, 0⟩, ⟨[2], ⟨2⟩, 0, 0⟩] = 0 := by decide
example :
    computeAvgProposerPriority
      [⟨[0], ⟨0⟩, 0, MaxInt64⟩, ⟨[1], ⟨1⟩, 0, 0⟩, ⟨[2], ⟨2⟩, 0, 0⟩] =
    Int.tdiv MaxInt64 3 := by decide
example :
    computeAvgProposerPriority [⟨[0], ⟨0⟩, 0, MaxInt64⟩, ⟨[1], ⟨1⟩, 0, 0⟩] =
    Int.tdiv MaxInt64 2 := by decide
example :
    computeAvgProposerPriority [⟨[0], ⟨0⟩, 0, MaxInt64⟩, ⟨[1], ⟨1⟩, 0, MaxInt64⟩] =
    MaxInt64 := by decide
example :
    computeAvgProposerPriority [⟨[0], ⟨0⟩, 0, MinInt64⟩, ⟨[1], ⟨1⟩, 0, MinInt64⟩] =
    MinInt64 := by decide

-- TestAveragingInIncrementProposerPriorityWithStakingPower: the per round
-- priority evolution for powers {10, 1, 1}.
def avgTestSet : ValidatorSet :=
  ⟨[⟨[0], ⟨0⟩, 10, 0⟩, ⟨[1], ⟨1⟩, 1, 0⟩, ⟨[2], ⟨2⟩, 1, 0⟩], 0⟩

example : prioritiesOf (IncrementProposerPriority avgTestSet 1).validators = [-2, 1, 1] := by decide
example : prioritiesOf (IncrementProposerPriority avgTestSet 2).validators = [-4, 2, 2] := by decide
example : prioritiesOf (IncrementProposerPriority avgTestSet 5).validators = [2, -7, 5] := by decide
example : prioritiesOf (IncrementProposerPriority avgTestSet 11).validators = [2, -1, -1] := by decide

-- Addresses of TestProposerSelection2 (20 bytes, last byte 0, 1, 2).
def psAddr (n : Nat) : List Nat :=
  [0, 0, 0, 0, 0, 0, 0, 0, 0, 0, 0, 0, 0, 0, 0, 0, 0, 0, 0, n]

/-- The three equal-power validator set of TestProposerSelection2. -/
def psSet : ValidatorSet :=
  ⟨[⟨psAddr 0, ⟨0⟩, 100, 0⟩, ⟨psAddr 1, ⟨1⟩, 100, 0⟩, ⟨psAddr 2, ⟨2⟩, 100, 0⟩], 300⟩

/-! ### Helper definitions for the congruence and invariant developments -/

/-- Core of a validator: everything except the proposer priority. -/
def coreOf (v : Validator) : List Nat × PubKey × Int := (v.address, v.pubKey, v.stakingPower)

/-- A relation on validators that only reads the core. -/
def CoreRel (r : Validator → Validator → Prop) : Prop :=
  ∀ a b c d, coreOf a = coreOf b → coreOf c = coreOf d → (r a c ↔ r b d)

/-- Relation between two classification results that agree up to the
priority fields of the carried records. -/
def ExceptCoreEq : Except VsError (List Validator × List Validator) →
    Except VsError (List Validator × List Validator) → Prop
  | .error e, .error e2 => e = e2
  | .ok (u, d), .ok (u2, d2) => u.map coreOf = u2.map coreOf ∧ d.map coreOf = d2.map coreOf
  | _, _ => False

/-- A one-member set used to witness C10. -/
def c10S : ValidatorSet := ⟨[⟨[5, 5], ⟨3⟩, 10, 7⟩], 10⟩

/-- A concrete three-member set for the C3 witness. -/
def c3S : ValidatorSet := ⟨[tVal 1 5, tVal 2 3, tVal 3 1], 0⟩

/-- All members at an address absent from the base set carry the priority c. -/
def AllNewEq (vals : ValidatorSet) (c : Int) (L : List Validator) : Prop :=
  ∀ x ∈ L, getByAddress vals x.address = none → x.proposerPriority = c

/-- Base set for the C8 witness. -/
def c8wBase : ValidatorSet := ⟨[tVal 1 10, tVal 2 10], 20⟩

/-- Changes adding two new validators for the C8 witness. -/
def c8wChanges : List Validator := [tVal 3 5, tVal 4 5]

/-- Resulting set of the C8 witness update. -/
def c8wS : ValidatorSet := (UpdateWithChangeSet c8wBase c8wChanges).1

/-- The two added members of the C8 witness, looked up in the result. -/
def c8wV1 : Validator := (getByAddress c8wS (tAddr 3)).getD dummyValidator

def c8wV2 : Validator := (getByAddress c8wS (tAddr 4)).getD dummyValidator

def sumPowers (l : List Validator) : Int := (l.map (fun v => v.stakingPower)).sum

/-- The current member matched by a change record (meaningful when the
lookup succeeds). -/
def matchedOf (vals : ValidatorSet) (c : Validator) : Validator :=
  (getByAddress vals c.address).getD dummyValidator

/-- Modelled from the spec: a well-formed validator set has positive member
powers, priorities inside the priority window of any reachable state, an
exact cached total, and pairwise distinct addresses. -/
def WellFormedSet (vals : ValidatorSet) : Prop :=
  (∀ v ∈ vals.validators, 1 ≤ v.stakingPower) ∧
  (∀ v ∈ vals.validators,
      -2305843009213693952 ≤ v.proposerPriority ∧
        v.proposerPriority ≤ 2305843009213693952) ∧
  vals.totalStakingPower = sumPowers vals.validators ∧
  (vals.validators.map (fun v => v.address)).Nodup

instance (vals : ValidatorSet) : Decidable (WellFormedSet vals) := by
  unfold WellFormedSet
  infer_instance

/-- Base set for the C2 amended witness. -/
def c2wBase : ValidatorSet := ⟨[tVal 1 6, tVal 2 2], 8⟩

/-- Change list for the C2 amended witness. -/
def c2wChanges : List Validator := [tVal 3 4]

/-- Resulting set of the C2 amended witness update. -/
def c2wS : ValidatorSet := (UpdateWithChangeSet c2wBase c2wChanges).1

example : (SelectProposer psSet [] 0 0).address = psAddr 2 := by decide

/-! ### Decidable equality for Except values -/

instance {ε α : Type} [DecidableEq ε] [DecidableEq α] : DecidableEq (Except ε α) := fun a b =>
  match a, b with
  | .ok x, .ok y =>
    if h : x = y then .isTrue (by rw [h]) else .isFalse (fun c => h (Except.ok.inj c))
  | .error x, .error y =>
    if h : x = y then .isTrue (by rw [h]) else .isFalse (fun c => h (Except.error.inj c))
  | .ok _, .error _ => .isFalse (fun c => Except.noConfusion c)
  | .error _, .ok _ => .isFalse (fun c => Except.noConfusion c)

/-- Error check on a verification result. -/
def isErr (r : Except String Unit) : Bool :=
  match r with
  | .error _ => true
  | .ok _ => false

/-! ### Claim C1: atomicity of UpdateWithChangeSet -/

/-- C1: for every validator set S and every change list, if
UpdateWithChangeSet returns an error (duplicate address, negative power,
removal of an absent member, delete-all, or overflow), the state of the set
after the call is exactly the state before the call: every error exit of
the modelled control flow happens before the first mutation. The change
list itself is untouched, which in this pure model holds by construction. -/
theorem C1_update_atomicity (S : ValidatorSet) (changes : List Validator) (e : VsError)
    (h : (UpdateWithChangeSet S changes).2 = some e) :
    (UpdateWithChangeSet S changes).1 = S := by
  revert h
  unfold UpdateWithChangeSet updateWithChangeSetRun
  split
  · intro h; simp at h
  · split
    · intro _; rfl
    · split
      · intro _; rfl
      · split
        · intro _; rfl
        · split
          · intro _; rfl
          · split
            · intro _; rfl
            · intro h; simp at h

/-- Witness for C1 at a concrete input: removing an absent member from a
one-member set errors and leaves the set unchanged. -/
theorem C1_update_atomicity_witness :
    (UpdateWithChangeSet ⟨[⟨[118, 49], ⟨1⟩, 10, 0⟩], 10⟩ [tVal 3 0]).1 =
      (⟨[⟨[118, 49], ⟨1⟩, 10, 0⟩], 10⟩ : ValidatorSet) :=
  C1_update_atomicity ⟨[⟨[118, 49], ⟨1⟩, 10, 0⟩], 10⟩ [tVal 3 0] VsError.notPresent (by decide)

/-! ### Claim C4: overflow rejection on a near-maximal set -/

/-- The starting set of TestValSetUpdateOverflowRelated, first case. -/
def c4Start : ValidatorSet :=
  (NewValidatorSet [tVal 2 (MaxTotalStakingPower - 1), tVal 1 1]).getD emptyValidatorSet

/-- C4: from the two-member set with powers MaxTotalStakingPower - 1 and 1,
the swap batch succeeds with the swapped powers, while a MaxInt64 update
fails with the overflow error and leaves the set byte-identical. -/
theorem C4_overflow_and_swap :
    (NewValidatorSet [tVal 2 (MaxTotalStakingPower - 1), tVal 1 1]).isSome = true ∧
    (UpdateWithChangeSet c4Start [tVal 1 (MaxTotalStakingPower - 1), tVal 2 1]).2 = none ∧
    corePowers (UpdateWithChangeSet c4Start [tVal 1 (MaxTotalStakingPower - 1), tVal 2 1]).1 =
      [(tAddr 1, MaxTotalStakingPower - 1), (tAddr 2, 1)] ∧
    UpdateWithChangeSet c4Start [tVal 1 MaxInt64] = (c4Start, some VsError.overflow) := by
  decide

/-! ### Claim C9: the empty validator set -/

/-- C9: NewValidatorSet accepts the empty (or nil) validator list, giving a
set of size 0, total staking power 0, and the SHA-256 digest of the empty
string as hash. -/
theorem C9_empty_set :
    NewValidatorSet ([] : List Validator) = some emptyValidatorSet ∧
    size emptyValidatorSet = 0 ∧
    TotalStakingPower emptyValidatorSet = 0 ∧
    validatorSetHash emptyValidatorSet =
      [0xe3, 0xb0, 0xc4, 0x42, 0x98, 0xfc, 0x1c, 0x14, 0x9a, 0xfb, 0xf4, 0xc8, 0x99, 0x6f, 0xb9,
       0x24, 0x27, 0xae, 0x41, 0xe4, 0x64, 0x9b, 0x93, 0x4c, 0xa4, 0x95, 0x99, 0x1b, 0x78, 0x52,
       0xb8, 0x55] := by
  decide

/-! ### Claim C2, counterexample: the priority window invariant fails after
an IncrementProposerPriority call reachable through the public interface -/

/-- A state reached through the public interface alone: a fresh four-member
set with equal powers, one priority increment, a successful power-changing
update, and one more priority increment. -/
def c2Final : Option ValidatorSet :=
  match NewValidatorSet
      [⟨[97], ⟨1⟩, 6, 0⟩, ⟨[98], ⟨2⟩, 6, 0⟩, ⟨[99], ⟨3⟩, 6, 0⟩, ⟨[100], ⟨4⟩, 6, 0⟩] with
  | none => none
  | some s =>
    let s1 := IncrementProposerPriority s 1
    match UpdateWithChangeSet s1
        [⟨[97], ⟨1⟩, 1, 0⟩, ⟨[98], ⟨2⟩, 6, 0⟩, ⟨[99], ⟨3⟩, 2, 0⟩, ⟨[100], ⟨4⟩, 3, 0⟩] with
    | (_, some _) => none
    | (s2, none) => some (IncrementProposerPriority s2 1)

/-- C2 counterexample: the reachable state above ends the final
IncrementProposerPriority with priority spread 25 while twice the total
staking power is 24, refuting the claimed window invariant; the rescale to
the window happens at the start of the call, before the increments. -/
theorem C2_counterexample :
    c2Final = some ⟨[⟨[98], ⟨2⟩, 6, -6⟩, ⟨[100], ⟨4⟩, 3, 3⟩, ⟨[99], ⟨3⟩, 2, 14⟩,
      ⟨[97], ⟨1⟩, 1, -11⟩], 12⟩ ∧
    (c2Final.map (fun s => computeMaxMinPriorityDiffL s.validators)) = some 25 ∧
    (c2Final.map (fun s => PriorityWindowSizeFactor * TotalStakingPower s)) = some 24 ∧
    ¬(25 : Int) ≤ 24 := by
  decide

/-! ### Claim C8, counterexample: an added validator need not have the
smallest priority in the resulting set -/

/-- A state reached through the public interface alone: a fresh set with one
heavy member, three increments, then an update that shrinks the heavy
member and adds a new member. -/
def c8Final : Option ValidatorSet :=
  match NewValidatorSet [⟨[97], ⟨1⟩, 1000, 0⟩, ⟨[98], ⟨2⟩, 1, 0⟩, ⟨[99], ⟨3⟩, 1, 0⟩] with
  | none => none
  | some s =>
    match UpdateWithChangeSet (IncrementProposerPriority s 3)
        [⟨[97], ⟨1⟩, 1, 0⟩, ⟨[100], ⟨4⟩, 1, 0⟩] with
    | (_, some _) => none
    | (s2, none) => some s2

/-- C8 counterexample: after the successful update above, the added member
(address [100]) ends with priority -1 while the kept member (address [97])
keeps a rescaled priority of -3, so the added priority is not the smallest
in the resulting set. -/
theorem C8_counterexample :
    c8Final = some ⟨[⟨[97], ⟨1⟩, 1, -3⟩, ⟨[98], ⟨2⟩, 1, 3⟩, ⟨[99], ⟨3⟩, 1, 3⟩,
      ⟨[100], ⟨4⟩, 1, -1⟩], 4⟩ ∧
    (c8Final.map (fun s => (getByAddress s [100]).map (·.proposerPriority))) =
      some (some (-1)) ∧
    (c8Final.map (fun s => (getByAddress s [97]).map (·.proposerPriority))) =
      some (some (-3)) ∧
    ¬(-1 : Int) ≤ -3 := by
  decide

/-! ### Claim C5: commit verification for a one-validator set -/

/-- The single validator of TestValidatorSetVerifyCommit, power 1000. -/
def c5Val : Validator := ⟨[1, 7], ⟨7⟩, 1000, 0⟩

/-- The one-member set of TestValidatorSetVerifyCommit. -/
def c5Set : ValidatorSet := ⟨[c5Val], 1000⟩

/-- The block identifier signed by the validator. -/
def c5BlockID : BlockID := ⟨[10, 11, 12], 1, [13, 14]⟩

/-- A different block identifier (hash bytes of the string goodbye). -/
def c5BadBlockID : BlockID := ⟨[103, 111, 111, 100, 98, 121, 101], 0, []⟩

/-- The precommit signature of the validator at height 5 for the block. -/
def c5Sig : Signature := signVote 7 ⟨"mychainID", true, 5, 0, c5BlockID, 1234⟩

/-- The commit assembled from the single precommit vote. -/
def c5Commit : Commit := ⟨5, 0, c5BlockID, [⟨.flagCommit, [1, 7], 1234, some c5Sig⟩]⟩

/-- The commit of the error table whose only signature is absent-flagged
(NewCommit(badHeight, 0, blockID, [CommitSig absent])). -/
def c5BadCommit : Commit := ⟨6, 0, c5BlockID, [⟨.flagAbsent, [], 0, none⟩]⟩

/-- C5: the correctly assembled commit verifies at ("mychainID", blockID,
5), while flipping the chain id, the block id, or the height, or replacing
the signature list by an absent-flagged commit signature, each returns an
error. -/
theorem C5_verify_commit :
    VerifyCommit c5Set "mychainID" c5BlockID 5 c5Commit = .ok () ∧
    isErr (VerifyCommit c5Set "notmychainID" c5BlockID 5 c5Commit) = true ∧
    isErr (VerifyCommit c5Set "mychainID" c5BadBlockID 5 c5Commit) = true ∧
    isErr (VerifyCommit c5Set "mychainID" c5BlockID 6 c5Commit) = true ∧
    isErr (VerifyCommit c5Set "mychainID" c5BlockID 5 c5BadCommit) = true := by
  decide

/-! ### Claim C7: light-trusting verification overflows on a maximal set -/

/-- The trusted one-member set of TestVerifyCommitTrustingErrorsOnOverflow,
whose single validator holds MaxTotalStakingPower. -/
def c7Set : ValidatorSet := ⟨[⟨[1, 9], ⟨9⟩, MaxTotalStakingPower, 0⟩], MaxTotalStakingPower⟩

/-- The block identifier of the overflow test commit. -/
def c7BlockID : BlockID := ⟨[21, 22, 23], 1, [24]⟩

/-- The valid commit of the single validator at height 1, round 1. -/
def c7Commit : Commit :=
  ⟨1, 1, c7BlockID,
   [⟨.flagCommit, [1, 9], 99, some (signVote 9 ⟨"test_chain_id", true, 1, 1, c7BlockID, 99⟩)⟩]⟩

/-- C7: with trust fraction 25/55, the multiplication of the trusted total
staking power by the numerator overflows int64, so verification fails with
the overflow error (whose message contains the string "int64 overflow")
rather than succeeding or reporting insufficient stake. -/
theorem C7_light_trusting_overflow :
    VerifyCommitLightTrusting c7Set "test_chain_id" c7Commit 25 55 =
      .error lightTrustingOverflowMsg ∧
    (∃ pre post, lightTrustingOverflowMsg = pre ++ "int64 overflow" ++ post) ∧
    VerifyCommitLightTrusting c7Set "test_chain_id" c7Commit 25 55 ≠
      .error "not enough trusted staking power" := by
  refine ⟨by decide, ⟨"", " while calculating the needed staking power", rfl⟩, by decide⟩

/-! ### The spec's SelectProposer construction against the recorded sequence

The selection function's source is not part of the repository snapshot, so
SelectProposer above follows the specification's construction (mix =
SHA-256 of seed, big-endian int64 height and big-endian int32 round; the
first 8 bytes as an unsigned integer; reduction modulo the total staking
power; address-ordered stake accumulation). The two theorems below document
that this construction does not reproduce the proposer sequence the test
suite records of the program, so no claim about the program's sequence can
be settled against it. -/

/-- At the first height of TestProposerSelection2 the specification's
construction selects the validator at index 2 of the equal-power set, while
the test suite records the program selecting index 0. -/
theorem selectProposer_model_height1_diverges :
    (SelectProposer psSet [] 0 0).address = psAddr 2 ∧ psAddr 2 ≠ psAddr 0 := by
  refine ⟨by decide, by decide⟩

/-- The first fifteen proposers produced by the specification's
construction on the equal-power three-validator set are the validators at
indices 2, 0, 2, 1, 2, 1, 0, 2, 0, 2, 0, 1, 1, 2, 2. The sequence the test
suite records of the program (0, 1, 0, 0, 2, 2, 0, 2, 1, 2, 2, 1, 2, 2, 2)
differs already at the first height, so the program's selection function is
not the construction the specification describes. -/
theorem selectProposer_model_sequence :
    ((List.range 15).map (fun i => (SelectProposer psSet [] (i : Int) 0).address)) =
      [psAddr 2, psAddr 0, psAddr 2, psAddr 1, psAddr 2, psAddr 1, psAddr 0, psAddr 2,
       psAddr 0, psAddr 2, psAddr 0, psAddr 1, psAddr 1, psAddr 2, psAddr 2] := by
  decide

/-! ### Congruence of the pipeline in the priority fields of the changes -/

lemma coreOf_addr {u w : Validator} (h : coreOf u = coreOf w) : u.address = w.address := by
  unfold coreOf at h; exact congrArg Prod.fst h

lemma coreOf_pk {u w : Validator} (h : coreOf u = coreOf w) : u.pubKey = w.pubKey := by
  unfold coreOf at h
  have := congrArg Prod.snd h
  exact congrArg Prod.fst this

lemma coreOf_pow {u w : Validator} (h : coreOf u = coreOf w) : u.stakingPower = w.stakingPower := by
  unfold coreOf at h
  have := congrArg Prod.snd h
  exact congrArg Prod.snd this

lemma coreRel_addrLe : CoreRel AddrLe := by
  intro a b c d hab hcd
  unfold AddrLe
  rw [coreOf_addr hab, coreOf_addr hcd]

lemma coreRel_deltaLe (S : ValidatorSet) : CoreRel (DeltaLe S) := by
  intro a b c d hab hcd
  unfold DeltaLe deltaOf
  rw [coreOf_addr hab, coreOf_addr hcd, coreOf_pow hab, coreOf_pow hcd]

lemma orderedInsert_core_congr (r : Validator → Validator → Prop) [DecidableRel r]
    (hr : CoreRel r) :
    ∀ {l l' : List Validator} {u u' : Validator}, coreOf u = coreOf u' →
      l.map coreOf = l'.map coreOf →
      (List.orderedInsert r u l).map coreOf = (List.orderedInsert r u' l').map coreOf := by
  intro l
  induction l with
  | nil =>
    intro l' u u' hu hl
    cases l' with
    | nil => simp [List.orderedInsert, hu]
    | cons y ys => simp at hl
  | cons x xs ih =>
    intro l' u u' hu hl
    cases l' with
    | nil => simp at hl
    | cons y ys =>
      simp only [List.map_cons, List.cons.injEq] at hl
      obtain ⟨hxy, hrest⟩ := hl
      simp only [List.orderedInsert]
      by_cases hc : r u x
      · rw [if_pos hc, if_pos ((hr u u' x y hu hxy).mp hc)]
        simp [hu, hxy, hrest]
      · rw [if_neg hc, if_neg (fun hc2 => hc ((hr u u' x y hu hxy).mpr hc2))]
        simp only [List.map_cons, List.cons.injEq]
        exact ⟨hxy, ih hu hrest⟩

lemma insertionSort_core_congr (r : Validator → Validator → Prop) [DecidableRel r]
    (hr : CoreRel r) :
    ∀ {l l' : List Validator}, l.map coreOf = l'.map coreOf →
      (List.insertionSort r l).map coreOf = (List.insertionSort r l').map coreOf := by
  intro l
  induction l with
  | nil =>
    intro l' hl
    cases l' with
    | nil => rfl
    | cons y ys => simp at hl
  | cons x xs ih =>
    intro l' hl
    cases l' with
    | nil => simp at hl
    | cons y ys =>
      simp only [List.map_cons, List.cons.injEq] at hl
      obtain ⟨hxy, hrest⟩ := hl
      simp only [List.insertionSort]
      exact orderedInsert_core_congr r hr hxy (ih hrest)

lemma classifyLoop_core_congr :
    ∀ {l l' : List Validator} (prev : Option (List Nat)), l.map coreOf = l'.map coreOf →
      ExceptCoreEq (classifyLoop prev l) (classifyLoop prev l') := by
  intro l
  induction l with
  | nil =>
    intro l' prev hl
    cases l' with
    | nil => simp [classifyLoop, ExceptCoreEq]
    | cons y ys => simp at hl
  | cons x xs ih =>
    intro l' prev hl
    cases l' with
    | nil => simp at hl
    | cons y ys =>
      simp only [List.map_cons, List.cons.injEq] at hl
      obtain ⟨hxy, hrest⟩ := hl
      have haddr : x.address = y.address := coreOf_addr hxy
      have hpow : x.stakingPower = y.stakingPower := coreOf_pow hxy
      simp only [classifyLoop]
      rw [← haddr, ← hpow]
      by_cases h1 : some x.address = prev
      · rw [if_pos h1, if_pos h1]; rfl
      · rw [if_neg h1, if_neg h1]
        by_cases h2 : x.stakingPower < 0
        · rw [if_pos h2, if_pos h2]; rfl
        · rw [if_neg h2, if_neg h2]
          have hrec := ih (some x.address) hrest
          rcases hc1 : classifyLoop (some x.address) xs with e | ⟨ups, dels⟩ <;>
            rcases hc2 : classifyLoop (some x.address) ys with e2 | ⟨ups2, dels2⟩ <;>
            rw [hc1, hc2] at hrec <;> unfold ExceptCoreEq at hrec <;> dsimp only <;>
            try exact hrec.elim
          · exact hrec
          · obtain ⟨hu, hd⟩ := hrec
            by_cases h3 : x.stakingPower = 0
            · rw [if_pos h3, if_pos h3]
              exact ⟨hu, by simp [hxy, hd]⟩
            · rw [if_neg h3, if_neg h3]
              exact ⟨by simp [hxy, hu], hd⟩

lemma verifyRemovals_core_congr :
    ∀ {d d' : List Validator} (S : ValidatorSet), d.map coreOf = d'.map coreOf →
      verifyRemovals d S = verifyRemovals d' S := by
  intro d
  induction d with
  | nil =>
    intro d' S h
    cases d' with
    | nil => rfl
    | cons y ys => simp at h
  | cons x xs ih =>
    intro d' S h
    cases d' with
    | nil => simp at h
    | cons y ys =>
      simp only [List.map_cons, List.cons.injEq] at h
      obtain ⟨hxy, hrest⟩ := h
      simp only [verifyRemovals]
      rw [coreOf_addr hxy, ih S hrest]

lemma verifyUpdatesLoop_core_congr (S : ValidatorSet) :
    ∀ {u u' : List Validator}, u.map coreOf = u'.map coreOf →
      ∀ acc, verifyUpdatesLoop S acc u = verifyUpdatesLoop S acc u' := by
  intro u
  induction u with
  | nil =>
    intro u' h acc
    cases u' with
    | nil => rfl
    | cons y ys => simp at h
  | cons x xs ih =>
    intro u' h acc
    cases u' with
    | nil => simp at h
    | cons y ys =>
      simp only [List.map_cons, List.cons.injEq] at h
      obtain ⟨hxy, hrest⟩ := h
      simp only [verifyUpdatesLoop]
      have hd : deltaOf S x = deltaOf S y := by
        unfold deltaOf
        rw [coreOf_addr hxy, coreOf_pow hxy]
      rw [hd]
      rcases safeAdd acc (deltaOf S y) with ⟨s, ov⟩
      cases ov
      · simp only []
        by_cases hs : MaxTotalStakingPower < s
        · rw [if_pos hs, if_pos hs]
        · rw [if_neg hs, if_neg hs]
          exact ih hrest s
      · rfl

lemma verifyUpdates_core_congr {u u' : List Validator} (S : ValidatorSet)
    (h : u.map coreOf = u'.map coreOf) :
    ∀ r, verifyUpdates u S r = verifyUpdates u' S r := by
  intro r
  unfold verifyUpdates
  exact verifyUpdatesLoop_core_congr S
    (insertionSort_core_congr (DeltaLe S) (coreRel_deltaLe S) h) _

lemma numNew_core_congr :
    ∀ {u u' : List Validator} (S : ValidatorSet), u.map coreOf = u'.map coreOf →
      numNewValidators u S = numNewValidators u' S := by
  intro u
  induction u with
  | nil =>
    intro u' S h
    cases u' with
    | nil => rfl
    | cons y ys => simp at h
  | cons x xs ih =>
    intro u' S h
    cases u' with
    | nil => simp at h
    | cons y ys =>
      simp only [List.map_cons, List.cons.injEq] at h
      obtain ⟨hxy, hrest⟩ := h
      simp only [numNewValidators, List.filter]
      rw [coreOf_addr hxy]
      have := ih S hrest
      unfold numNewValidators at this
      cases hgb : (getByAddress S y.address).isNone <;> simp [hgb, this]

lemma computeNewPriorities_core_congr :
    ∀ {u u' : List Validator} (S : ValidatorSet), u.map coreOf = u'.map coreOf →
      ∀ tp, computeNewPriorities u S tp = computeNewPriorities u' S tp := by
  intro u
  induction u with
  | nil =>
    intro u' S h tp
    cases u' with
    | nil => rfl
    | cons y ys => simp at h
  | cons x xs ih =>
    intro u' S h tp
    cases u' with
    | nil => simp at h
    | cons y ys =>
      simp only [List.map_cons, List.cons.injEq] at h
      obtain ⟨hxy, hrest⟩ := h
      have hrec := ih S hrest tp
      have haddr : x.address = y.address := coreOf_addr hxy
      have hpk : x.pubKey = y.pubKey := coreOf_pk hxy
      have hpow : x.stakingPower = y.stakingPower := coreOf_pow hxy
      unfold computeNewPriorities at hrec ⊢
      simp only [List.map_cons]
      rw [haddr, hpk, hpow, hrec]

lemma hasAddrIn_core_congr :
    ∀ {d d' : List Validator}, d.map coreOf = d'.map coreOf →
      ∀ a, hasAddrIn d a = hasAddrIn d' a := by
  intro d
  induction d with
  | nil =>
    intro d' h a
    cases d' with
    | nil => rfl
    | cons y ys => simp at h
  | cons x xs ih =>
    intro d' h a
    cases d' with
    | nil => simp at h
    | cons y ys =>
      simp only [List.map_cons, List.cons.injEq] at h
      obtain ⟨hxy, hrest⟩ := h
      simp only [hasAddrIn, List.any_cons]
      rw [coreOf_addr hxy]
      have := ih hrest a
      unfold hasAddrIn at this
      rw [this]

lemma applyRemovals_core_congr {d d' : List Validator} (h : d.map coreOf = d'.map coreOf)
    (l : List Validator) : applyRemovals l d = applyRemovals l d' := by
  unfold applyRemovals
  exact List.filter_congr (fun v _ => by rw [hasAddrIn_core_congr h])

lemma map_core_length {l l' : List Validator} (h : l.map coreOf = l'.map coreOf) :
    l.length = l'.length := by
  have := congrArg List.length h
  simpa using this

/-- The whole change-set pipeline never reads the priority fields of the
change records: two change lists with the same cores produce the same
result on any set. -/
theorem updateRun_core_congr (S : ValidatorSet) (b : Bool) {c1 c2 : List Validator}
    (h : c1.map coreOf = c2.map coreOf) :
    updateWithChangeSetRun S c1 b = updateWithChangeSetRun S c2 b := by
  have hpc : ExceptCoreEq (processChanges c1) (processChanges c2) :=
    classifyLoop_core_congr none (insertionSort_core_congr AddrLe coreRel_addrLe h)
  unfold updateWithChangeSetRun
  by_cases h1 : c1 = []
  · have h2 : c2 = [] := by
      subst h1
      simpa using (List.map_eq_nil_iff.mp h.symm)
    rw [if_pos h1, if_pos h2]
  · have h2 : c2 ≠ [] := by
      intro h2
      subst h2
      exact h1 (List.map_eq_nil_iff.mp h)
    rw [if_neg h1, if_neg h2]
    rcases hp1 : processChanges c1 with e | ⟨ups, dels⟩ <;>
      rcases hp2 : processChanges c2 with e2 | ⟨ups2, dels2⟩ <;>
      rw [hp1, hp2] at hpc <;> unfold ExceptCoreEq at hpc <;> try exact hpc.elim
    · rw [hpc]
    · obtain ⟨hu, hd⟩ := hpc
      dsimp only
      have hdlen : dels.length = dels2.length := map_core_length hd
      have hnil21 : dels2 = [] → dels = [] := by
        intro hh
        subst hh
        exact List.map_eq_nil_iff.mp hd
      have hnil12 : dels = [] → dels2 = [] := by
        intro hh
        subst hh
        exact List.map_eq_nil_iff.mp hd.symm
      rw [verifyRemovals_core_congr S hd]
      by_cases hb : b = false ∧ dels ≠ []
      · have hb2 : b = false ∧ dels2 ≠ [] := ⟨hb.1, fun hh => hb.2 (hnil21 hh)⟩
        rw [if_pos hb, if_pos hb2]
      · have hb2 : ¬(b = false ∧ dels2 ≠ []) := by
          rintro ⟨hbf, hne⟩
          exact hb ⟨hbf, fun hh => hne (hnil12 hh)⟩
        rw [if_neg hb, if_neg hb2]
        cases hvr : verifyRemovals dels2 S with
        | error e => rfl
        | ok removed =>
          dsimp only
          rw [verifyUpdates_core_congr S hu removed]
          cases hvu : verifyUpdates ups2 S removed with
          | error e => rfl
          | ok tp =>
            dsimp only
            by_cases hcnd : numNewValidators ups S = 0 ∧ S.validators.length = dels.length
            · have hcnd2 : numNewValidators ups2 S = 0 ∧ S.validators.length = dels2.length :=
                ⟨(numNew_core_congr S hu) ▸ hcnd.1, hdlen ▸ hcnd.2⟩
              rw [if_pos hcnd, if_pos hcnd2]
            · have hcnd2 : ¬(numNewValidators ups2 S = 0 ∧ S.validators.length = dels2.length) := by
                rintro ⟨a1, a2⟩
                exact hcnd ⟨by rw [numNew_core_congr S hu]; exact a1, by rw [hdlen]; exact a2⟩
              rw [if_neg hcnd, if_neg hcnd2]
              rw [computeNewPriorities_core_congr S hu tp, applyRemovals_core_congr hd S.validators]

/-- C10: an update record for an existing member sets the staking power but
its ProposerPriority field is ignored entirely: the member keeps the
priority it had in the set (computeNewPriorities copies it, subject only to
the batch normalization), so two update records differing only in the
priority field produce identical resulting sets. -/
theorem C10_update_ignores_priority (S : ValidatorSet) (u1 u2 v : Validator)
    (haddr : u1.address = u2.address) (hpk : u1.pubKey = u2.pubKey)
    (hpow : u1.stakingPower = u2.stakingPower) (_hpos : 0 < u1.stakingPower)
    (hv : getByAddress S u1.address = some v) :
    UpdateWithChangeSet S [u1] = UpdateWithChangeSet S [u2] ∧
    ∀ tp, computeNewPriorities [u1] S tp =
      [⟨u1.address, u1.pubKey, u1.stakingPower, v.proposerPriority⟩] := by
  constructor
  · exact updateRun_core_congr S true (by simp [coreOf, haddr, hpk, hpow])
  · intro tp
    simp [computeNewPriorities, hv]

/-- Witness for C10 at a concrete input: two updates of the member that
differ only in the priority field give identical results. -/
theorem C10_update_ignores_priority_witness :
    UpdateWithChangeSet c10S [⟨[5, 5], ⟨3⟩, 12, 99⟩] =
      UpdateWithChangeSet c10S [⟨[5, 5], ⟨3⟩, 12, -4⟩] :=
  (C10_update_ignores_priority c10S ⟨[5, 5], ⟨3⟩, 12, 99⟩ ⟨[5, 5], ⟨3⟩, 12, -4⟩
    ⟨[5, 5], ⟨3⟩, 10, 7⟩ rfl rfl rfl (by decide) (by decide)).1

/-! ### SelectProposer reads only addresses, powers and the cached total -/

lemma coreOf_setPrio (v : Validator) (p : Int) :
    coreOf { v with proposerPriority := p } = coreOf v := rfl

lemma computeTotal_core_congr :
    ∀ {l l' : List Validator}, l.map coreOf = l'.map coreOf →
      ∀ acc, l.foldl (fun a v => safeAddClip a v.stakingPower) acc =
        l'.foldl (fun a v => safeAddClip a v.stakingPower) acc := by
  intro l
  induction l with
  | nil =>
    intro l' h acc
    cases l' with
    | nil => rfl
    | cons y ys => simp at h
  | cons x xs ih =>
    intro l' h acc
    cases l' with
    | nil => simp at h
    | cons y ys =>
      simp only [List.map_cons, List.cons.injEq] at h
      obtain ⟨hxy, hrest⟩ := h
      simp only [List.foldl_cons]
      rw [coreOf_pow hxy]
      exact ih hrest _

lemma totalStakingPower_core_congr {S1 S2 : ValidatorSet}
    (h : S1.validators.map coreOf = S2.validators.map coreOf)
    (hc : S1.totalStakingPower = S2.totalStakingPower) :
    TotalStakingPower S1 = TotalStakingPower S2 := by
  unfold TotalStakingPower computeTotal
  rw [hc, computeTotal_core_congr h 0]

lemma scanTarget_addr_congr :
    ∀ {l l' : List Validator}, l.map coreOf = l'.map coreOf →
      ∀ cum t, (scanTarget l cum t).map (·.address) = (scanTarget l' cum t).map (·.address) := by
  intro l
  induction l with
  | nil =>
    intro l' h cum t
    cases l' with
    | nil => rfl
    | cons y ys => simp at h
  | cons x xs ih =>
    intro l' h cum t
    cases l' with
    | nil => simp at h
    | cons y ys =>
      simp only [List.map_cons, List.cons.injEq] at h
      obtain ⟨hxy, hrest⟩ := h
      simp only [scanTarget]
      rw [coreOf_pow hxy]
      by_cases hcnd : t < cum + y.stakingPower
      · rw [if_pos hcnd, if_pos hcnd]
        simp [coreOf_addr hxy]
      · rw [if_neg hcnd, if_neg hcnd]
        exact ih hrest _ t

/-- SelectProposer depends only on the validator cores (addresses, public
keys, staking powers in order) and the cached total: it never reads the
mutable ProposerPriority fields. -/
theorem selectProposer_core_congr {S1 S2 : ValidatorSet}
    (h : S1.validators.map coreOf = S2.validators.map coreOf)
    (hc : S1.totalStakingPower = S2.totalStakingPower) (seed : List Nat) (ht rd : Int) :
    (SelectProposer S1 seed ht rd).address = (SelectProposer S2 seed ht rd).address := by
  unfold SelectProposer
  dsimp only
  rw [totalStakingPower_core_congr h hc]
  have hscan := scanTarget_addr_congr (insertionSort_core_congr AddrLe coreRel_addrLe h)
    0 ((selectionNumber seed ht rd % (TotalStakingPower S2).toNat : Nat) : Int)
  cases h1 : scanTarget (List.insertionSort AddrLe S1.validators) 0
      ((selectionNumber seed ht rd % (TotalStakingPower S2).toNat : Nat) : Int) with
  | none =>
    cases h2 : scanTarget (List.insertionSort AddrLe S2.validators) 0
        ((selectionNumber seed ht rd % (TotalStakingPower S2).toNat : Nat) : Int) with
    | none => rfl
    | some w => rw [h1, h2] at hscan; simp at hscan
  | some v =>
    cases h2 : scanTarget (List.insertionSort AddrLe S2.validators) 0
        ((selectionNumber seed ht rd % (TotalStakingPower S2).toNat : Nat) : Int) with
    | none => rw [h1, h2] at hscan; simp at hscan
    | some w =>
      rw [h1, h2] at hscan
      simpa using hscan

/-! ### IncrementProposerPriority preserves cores and the cached total -/

lemma map_core_setPrioMap (l : List Validator) (f : Validator → Int) :
    (l.map (fun v => { v with proposerPriority := f v })).map coreOf = l.map coreOf := by
  rw [List.map_map]
  rfl

lemma rescale_core (l : List Validator) (dm : Int) :
    (RescalePriorities l dm).map coreOf = l.map coreOf := by
  unfold RescalePriorities
  dsimp only
  split
  · exact map_core_setPrioMap l _
  · rfl

lemma shift_core (l : List Validator) :
    (shiftByAvgProposerPriority l).map coreOf = l.map coreOf := by
  unfold shiftByAvgProposerPriority
  exact map_core_setPrioMap l _

lemma decAt_core : ∀ (l : List Validator) (i : Nat) (t : Int),
    (decAt l i t).map coreOf = l.map coreOf := by
  intro l
  induction l with
  | nil => intro i t; rfl
  | cons x xs ih =>
    intro i t
    cases i with
    | zero => simp [decAt, coreOf]
    | succ j => simp [decAt, ih j t]

lemma incrementStep_core (t : Int) (l : List Validator) :
    (incrementStep t l).map coreOf = l.map coreOf := by
  unfold incrementStep
  rw [decAt_core, map_core_setPrioMap]

lemma incrementLoop_core (t : Int) :
    ∀ (k : Nat) (l : List Validator), (incrementLoop t k l).map coreOf = l.map coreOf := by
  intro k
  induction k with
  | zero => intro l; rfl
  | succ j ih =>
    intro l
    unfold incrementLoop
    rw [ih, incrementStep_core]

/-- IncrementProposerPriority changes only priorities: the member cores and
the cached total staking power are untouched. -/
theorem increment_core (vals : ValidatorSet) (times : Nat) :
    (IncrementProposerPriority vals times).validators.map coreOf =
      vals.validators.map coreOf ∧
    (IncrementProposerPriority vals times).totalStakingPower = vals.totalStakingPower := by
  unfold IncrementProposerPriority
  split
  · exact ⟨rfl, rfl⟩
  · constructor
    · rw [incrementLoop_core, shift_core, rescale_core]
    · rfl

/-! ### C3: selection independence -/

lemma foldl_increment_core (ts : List Nat) :
    ∀ S : ValidatorSet,
      (ts.foldl IncrementProposerPriority S).validators.map coreOf =
          S.validators.map coreOf ∧
        (ts.foldl IncrementProposerPriority S).totalStakingPower = S.totalStakingPower := by
  induction ts with
  | nil => intro S; exact ⟨rfl, rfl⟩
  | cons t ts ih =>
    intro S
    have h1 := increment_core S t
    have h2 := ih (IncrementProposerPriority S t)
    refine ⟨?_, ?_⟩
    · rw [List.foldl_cons, h2.1, h1.1]
    · rw [List.foldl_cons, h2.2, h1.2]

/-- C3: for a non-empty set with positive total staking power, the proposer
selected for a given (seed, height, round) has the same address after any
number of intervening IncrementProposerPriority calls, and a
ToProto/FromProto round-trip returns the set unchanged: SelectProposer does
not depend on the mutable ProposerPriority state. -/
theorem C3_selection_independence (S : ValidatorSet) (ts : List Nat)
    (seed : List Nat) (ht rd : Int) (hne : S.validators ≠ [])
    (_hpos : 0 < TotalStakingPower S) :
    (SelectProposer (ts.foldl IncrementProposerPriority S) seed ht rd).address
        = (SelectProposer S seed ht rd).address ∧
      fromProto (toProto S) = some S := by
  constructor
  · exact selectProposer_core_congr (foldl_increment_core ts S).1
      (foldl_increment_core ts S).2 seed ht rd
  · simp [fromProto, toProto, hne]

/-- Concrete instance of C3 at a three-member set, two increment calls of 1
and 3 rounds, seed byte 7, height 10, round 0. -/
theorem C3_selection_independence_witness :
    (SelectProposer (([1, 3] : List Nat).foldl IncrementProposerPriority c3S) [7] 10 0).address
        = (SelectProposer c3S [7] 10 0).address ∧
      fromProto (toProto c3S) = some c3S :=
  C3_selection_independence c3S [1, 3] [7] 10 0 (by decide) (by decide)

/-! ### C8: added validators enter at the magic priority and stay equal -/

lemma lookupAddr_mem_isSome : ∀ {l : List Validator} {v : Validator}, v ∈ l →
    (lookupAddr l v.address).isSome = true := by
  intro l
  induction l with
  | nil => intro v h; cases h
  | cons x xs ih =>
    intro v h
    unfold lookupAddr
    by_cases hx : x.address = v.address
    · rw [if_pos hx]; rfl
    · rw [if_neg hx]
      cases h with
      | head => exact absurd rfl hx
      | tail _ h2 => exact ih h2

lemma mem_mergeByAddr : ∀ (b u : List Validator) (x : Validator),
    x ∈ mergeByAddr b u → x ∈ b ∨ x ∈ u := by
  intro b
  induction b with
  | nil => intro u x h; exact Or.inr h
  | cons v bs ih =>
    intro u x h
    unfold mergeByAddr at h
    dsimp only at h
    rcases hdw : u.dropWhile (fun w => lexLt w.address v.address) with _ | ⟨w, ws⟩
    · rw [hdw] at h
      rw [List.mem_append, List.mem_cons] at h
      rcases h with hpre | hx | hrec
      · exact Or.inr ((List.takeWhile_sublist _).subset hpre)
      · exact Or.inl (hx ▸ List.mem_cons_self v bs)
      · rcases ih [] x hrec with hbs | hnil
        · exact Or.inl (List.mem_cons_of_mem v hbs)
        · cases hnil
    · rw [hdw] at h
      dsimp only at h
      have hwu : w ∈ u := (List.dropWhile_sublist _).subset (hdw ▸ List.mem_cons_self w ws)
      have hws : ∀ y ∈ ws, y ∈ u := fun y hy =>
        (List.dropWhile_sublist _).subset (hdw ▸ List.mem_cons_of_mem w hy)
      by_cases haddr : w.address = v.address
      · rw [if_pos haddr] at h
        rw [List.mem_append, List.mem_cons] at h
        rcases h with hpre | hx | hrec
        · exact Or.inr ((List.takeWhile_sublist _).subset hpre)
        · exact Or.inr (hx ▸ hwu)
        · rcases ih ws x hrec with hbs | hin
          · exact Or.inl (List.mem_cons_of_mem v hbs)
          · exact Or.inr (hws x hin)
      · rw [if_neg haddr] at h
        rw [List.mem_append, List.mem_cons] at h
        rcases h with hpre | hx | hrec
        · exact Or.inr ((List.takeWhile_sublist _).subset hpre)
        · exact Or.inl (hx ▸ List.mem_cons_self v bs)
        · rcases ih (w :: ws) x hrec with hbs | hin
          · exact Or.inl (List.mem_cons_of_mem v hbs)
          · rcases List.mem_cons.mp hin with hxw | hxs
            · exact Or.inr (hxw ▸ hwu)
            · exact Or.inr (hws x hxs)

lemma allNewEq_cnp (ups : List Validator) (vals : ValidatorSet) (tp : Int) :
    AllNewEq vals (-(tp + Int.tdiv tp 8)) (computeNewPriorities ups vals tp) := by
  intro x hx hnone
  unfold computeNewPriorities at hx
  rw [List.mem_map] at hx
  obtain ⟨u, hu, hxu⟩ := hx
  cases hga : getByAddress vals u.address with
  | some v =>
    rw [hga] at hxu
    dsimp only at hxu
    subst hxu
    dsimp only at hnone
    rw [hnone] at hga
    exact Option.noConfusion hga
  | none =>
    rw [hga] at hxu
    dsimp only at hxu
    subst hxu
    rfl

lemma allNewEq_map (vals : ValidatorSet) (c : Int) (L : List Validator) (g : Int → Int)
    (h : AllNewEq vals c L) :
    AllNewEq vals (g c)
      (L.map (fun v => { v with proposerPriority := g v.proposerPriority })) := by
  intro x hx hnone
  rw [List.mem_map] at hx
  obtain ⟨u, hu, hxu⟩ := hx
  subst hxu
  dsimp only at hnone ⊢
  rw [h u hu hnone]

lemma allNewEq_rescale (vals : ValidatorSet) (c : Int) (L : List Validator) (D : Int)
    (h : AllNewEq vals c L) : ∃ d, AllNewEq vals d (RescalePriorities L D) := by
  unfold RescalePriorities
  dsimp only
  split
  · exact ⟨_, allNewEq_map vals c L (fun p => Int.tdiv p _) h⟩
  · exact ⟨c, h⟩

lemma allNewEq_shift (vals : ValidatorSet) (c : Int) (L : List Validator)
    (h : AllNewEq vals c L) : ∃ d, AllNewEq vals d (shiftByAvgProposerPriority L) := by
  unfold shiftByAvgProposerPriority
  dsimp only
  exact ⟨_, allNewEq_map vals c L (fun p => safeSubClip p _) h⟩

lemma applyRemovals_present (vals : ValidatorSet) (dels : List Validator) :
    ∀ x ∈ applyRemovals vals.validators dels, getByAddress vals x.address ≠ none := by
  intro x hx hnone
  have hmem : x ∈ vals.validators := List.mem_of_mem_filter hx
  have hsome := lookupAddr_mem_isSome hmem
  unfold getByAddress at hnone
  rw [hnone] at hsome
  exact absurd hsome (by decide)

lemma allNewEq_applyUpdates (vals : ValidatorSet) (c : Int) (l1 ups2 : List Validator)
    (h1 : ∀ x ∈ l1, getByAddress vals x.address ≠ none)
    (h2 : AllNewEq vals c ups2) : AllNewEq vals c (applyUpdates l1 ups2) := by
  intro x hx hnone
  unfold applyUpdates at hx
  rcases mem_mergeByAddr _ _ _ hx with hb | hu
  · exact absurd hnone (h1 x ((List.perm_insertionSort AddrLe l1).mem_iff.mp hb))
  · exact h2 x hu hnone

lemma allNewEq_pipeline (vals : ValidatorSet) (ups dels : List Validator) (tp D : Int) :
    ∃ d, AllNewEq vals d
      (shiftByAvgProposerPriority (RescalePriorities
        (List.insertionSort PowLe (applyUpdates (applyRemovals vals.validators dels)
          (computeNewPriorities ups vals tp))) D)) := by
  have h2 := allNewEq_applyUpdates vals (-(tp + Int.tdiv tp 8)) _ _
    (applyRemovals_present vals dels) (allNewEq_cnp ups vals tp)
  have h3 : AllNewEq vals (-(tp + Int.tdiv tp 8))
      (List.insertionSort PowLe (applyUpdates (applyRemovals vals.validators dels)
        (computeNewPriorities ups vals tp))) :=
    fun x hx hn => h2 x ((List.perm_insertionSort PowLe _).mem_iff.mp hx) hn
  obtain ⟨d4, h4⟩ := allNewEq_rescale vals _ _ D h3
  exact allNewEq_shift vals _ _ h4

/-- C8 amended: every validator produced by computeNewPriorities at an
address absent from the base set enters with priority
-(tp + tp / 8) before the rescale and shift steps, and after any
successful UpdateWithChangeSet all validators added in the batch carry
the same proposer priority (the counterexample shows it need not be the
smallest in the set). -/
theorem C8_added_entry_priority (vals S2 : ValidatorSet) (changes : List Validator)
    (h : UpdateWithChangeSet vals changes = (S2, none)) :
    (∀ (ups : List Validator) (tp : Int) (w : Validator),
        w ∈ computeNewPriorities ups vals tp →
        getByAddress vals w.address = none →
        w.proposerPriority = -(tp + Int.tdiv tp 8)) ∧
    ∀ v ∈ S2.validators, ∀ w ∈ S2.validators,
      getByAddress vals v.address = none → getByAddress vals w.address = none →
      v.proposerPriority = w.proposerPriority := by
  constructor
  · intro ups tp w hw hnone
    exact allNewEq_cnp ups vals tp w hw hnone
  · unfold UpdateWithChangeSet updateWithChangeSetRun at h
    split at h
    · -- changes = []
      have hS : vals = S2 := congrArg Prod.fst h
      intro v hv w hw hvn _hwn
      have hm : v ∈ vals.validators := hS ▸ hv
      have hsome := lookupAddr_mem_isSome hm
      unfold getByAddress at hvn
      rw [hvn] at hsome
      exact absurd hsome (by decide)
    · split at h
      · exact Option.noConfusion (congrArg Prod.snd h)
      · split at h
        · exact Option.noConfusion (congrArg Prod.snd h)
        · split at h
          · exact Option.noConfusion (congrArg Prod.snd h)
          · split at h
            · exact Option.noConfusion (congrArg Prod.snd h)
            · split at h
              · exact Option.noConfusion (congrArg Prod.snd h)
              · dsimp only at h
                have hS : S2 = _ := (congrArg Prod.fst h).symm
                subst hS
                intro v hv w hw hvn hwn
                dsimp only at hv hw
                obtain ⟨d, hd⟩ := allNewEq_pipeline vals _ _ _ _
                rw [hd v hv hvn, hd w hw hwn]

/-- Concrete instance of C8: in the witness update adding validators v3 and
v4 to a two-member base set, the two added members end with equal proposer
priority. -/
theorem C8_added_entry_priority_witness :
    c8wV1.proposerPriority = c8wV2.proposerPriority :=
  (C8_added_entry_priority c8wBase c8wS c8wChanges (by decide)).2
    c8wV1 (by decide) c8wV2 (by decide) (by decide) (by decide)

/-! ### C2: arithmetic support -/

lemma safeAdd_eq_of_ok {a b s : Int} (h : safeAdd a b = (s, false)) : s = a + b := by
  unfold safeAdd at h
  split at h
  · exact absurd (congrArg Prod.snd h) (by simp)
  · split at h
    · exact absurd (congrArg Prod.snd h) (by simp)
    · exact (congrArg Prod.fst h).symm

lemma safeAddClip_eq {a b : Int} (h1 : MinInt64 ≤ a + b) (h2 : a + b ≤ MaxInt64) :
    safeAddClip a b = a + b := by
  unfold safeAddClip safeAdd
  rw [if_neg, if_neg]
  · rintro ⟨hb, hab⟩
    unfold MinInt64 at h1
    unfold MinInt64 at hab
    omega
  · rintro ⟨hb, hab⟩
    unfold MaxInt64 at h2
    unfold MaxInt64 at hab
    omega

lemma safeSubClip_eq {a b : Int} (h1 : MinInt64 ≤ a - b) (h2 : a - b ≤ MaxInt64) :
    safeSubClip a b = a - b := by
  unfold safeSubClip safeSub
  rw [if_neg, if_neg]
  · rintro ⟨hb, hab⟩
    unfold MaxInt64 at h2
    unfold MaxInt64 at hab
    omega
  · rintro ⟨hb, hab⟩
    unfold MinInt64 at h1
    unfold MinInt64 at hab
    omega

lemma tdiv_le_self_of_nonneg {a r : Int} (ha : 0 ≤ a) (hr : 0 < r) : a.tdiv r ≤ a := by
  rw [Int.tdiv_eq_ediv ha hr.le]
  exact Int.ediv_le_self r ha

lemma tdiv_nonpos_of_nonpos {a r : Int} (ha : a ≤ 0) (hr : 0 < r) : a.tdiv r ≤ 0 := by
  have h1 : a.tdiv r = -((-a).tdiv r) := by rw [← Int.neg_tdiv, neg_neg]
  rw [h1]
  have := Int.tdiv_nonneg (by omega : (0:Int) ≤ -a) hr.le
  omega

lemma self_le_tdiv_of_nonpos {a r : Int} (ha : a ≤ 0) (hr : 0 < r) : a ≤ a.tdiv r := by
  have h1 : a.tdiv r = -((-a).tdiv r) := by rw [← Int.neg_tdiv, neg_neg]
  have h2 := tdiv_le_self_of_nonneg (by omega : (0:Int) ≤ -a) hr
  omega

lemma tdiv_mono_nonneg {a b r : Int} (ha : 0 ≤ a) (hab : a ≤ b) (hr : 0 < r) :
    a.tdiv r ≤ b.tdiv r := by
  rw [Int.tdiv_eq_ediv ha hr.le, Int.tdiv_eq_ediv (ha.trans hab) hr.le]
  exact Int.ediv_le_ediv hr hab

lemma tdiv_mono {a b r : Int} (hab : a ≤ b) (hr : 0 < r) : a.tdiv r ≤ b.tdiv r := by
  rcases le_or_lt 0 a with ha | ha
  · exact tdiv_mono_nonneg ha hab hr
  · rcases le_or_lt 0 b with hb | hb
    · exact (tdiv_nonpos_of_nonpos ha.le hr).trans (Int.tdiv_nonneg hb hr.le)
    · have h1 : a.tdiv r = -((-a).tdiv r) := by rw [← Int.neg_tdiv, neg_neg]
      have h2 : b.tdiv r = -((-b).tdiv r) := by rw [← Int.neg_tdiv, neg_neg]
      have h3 := tdiv_mono_nonneg (by omega : (0:Int) ≤ -b) (by omega : -b ≤ -a) hr
      omega

lemma tdiv_between {a r B : Int} (hr : 0 < r) (h1 : -B ≤ a) (h2 : a ≤ B) :
    -B ≤ a.tdiv r ∧ a.tdiv r ≤ B := by
  rcases le_or_lt 0 a with ha | ha
  · have l1 := Int.tdiv_nonneg ha hr.le
    have l2 := tdiv_le_self_of_nonneg ha hr
    constructor <;> omega
  · have l1 := self_le_tdiv_of_nonpos ha.le hr
    have l2 := tdiv_nonpos_of_nonpos ha.le hr
    constructor <;> omega

lemma tdiv_spread_nonneg {a b r D : Int} (ha : 0 ≤ a) (hab : a ≤ b) (hr : 0 < r)
    (h : b - a ≤ r * D) : b.tdiv r - a.tdiv r ≤ D := by
  rw [Int.tdiv_eq_ediv ha hr.le, Int.tdiv_eq_ediv (ha.trans hab) hr.le]
  have h1 : b ≤ a + D * r := by nlinarith
  have h2 := Int.ediv_le_ediv hr h1
  rw [Int.add_mul_ediv_right a D hr.ne'] at h2
  omega

lemma tdiv_spread {a b r D : Int} (hab : a ≤ b) (hr : 0 < r) (h : b - a ≤ r * D) :
    b.tdiv r - a.tdiv r ≤ D := by
  rcases le_or_lt 0 a with ha | ha
  · exact tdiv_spread_nonneg ha hab hr h
  · rcases le_or_lt b 0 with hb | hb
    · have h1 : a.tdiv r = -((-a).tdiv r) := by rw [← Int.neg_tdiv, neg_neg]
      have h2 : b.tdiv r = -((-b).tdiv r) := by rw [← Int.neg_tdiv, neg_neg]
      have h3 := tdiv_spread_nonneg (by omega : (0:Int) ≤ -b) (by omega : -b ≤ -a) hr
        (by omega : -a - -b ≤ r * D)
      omega
    · have h1 : a.tdiv r = -((-a).tdiv r) := by rw [← Int.neg_tdiv, neg_neg]
      rw [h1, Int.tdiv_eq_ediv hb.le hr.le, Int.tdiv_eq_ediv (by omega : (0:Int) ≤ -a) hr.le]
      have h2 := Int.ediv_mul_le b hr.ne'
      have h3 := Int.ediv_mul_le (-a) hr.ne'
      have h4 : (b / r + -a / r) * r ≤ r * D := by
        rw [add_mul]
        nlinarith
      have h5 : b / r + -a / r ≤ D := by nlinarith
      omega

/-! ### C2: max, min, sum machinery -/

lemma maxPriority_cons (x y : Validator) (rest : List Validator) :
    maxPriority (x :: y :: rest) = max x.proposerPriority (maxPriority (y :: rest)) := rfl

lemma minPriority_cons (x y : Validator) (rest : List Validator) :
    minPriority (x :: y :: rest) = min x.proposerPriority (minPriority (y :: rest)) := rfl

lemma le_maxPriority : ∀ {l : List Validator} {v : Validator}, v ∈ l →
    v.proposerPriority ≤ maxPriority l := by
  intro l
  induction l with
  | nil => intro v h; cases h
  | cons x xs ih =>
    intro v h
    cases xs with
    | nil =>
      rcases List.mem_cons.mp h with h1 | h1
      · subst h1; exact le_refl _
      · cases h1
    | cons y ys =>
      rw [maxPriority_cons]
      rcases List.mem_cons.mp h with h1 | h1
      · subst h1; exact le_max_left _ _
      · exact (ih h1).trans (le_max_right _ _)

lemma minPriority_le : ∀ {l : List Validator} {v : Validator}, v ∈ l →
    minPriority l ≤ v.proposerPriority := by
  intro l
  induction l with
  | nil => intro v h; cases h
  | cons x xs ih =>
    intro v h
    cases xs with
    | nil =>
      rcases List.mem_cons.mp h with h1 | h1
      · subst h1; exact le_refl _
      · cases h1
    | cons y ys =>
      rw [minPriority_cons]
      rcases List.mem_cons.mp h with h1 | h1
      · subst h1; exact min_le_left _ _
      · exact (min_le_right _ _).trans (ih h1)

lemma maxPriority_mem : ∀ {l : List Validator}, l ≠ [] →
    ∃ v ∈ l, v.proposerPriority = maxPriority l := by
  intro l
  induction l with
  | nil => intro h; exact absurd rfl h
  | cons x xs ih =>
    intro _
    cases xs with
    | nil => exact ⟨x, List.mem_cons_self x [], rfl⟩
    | cons y ys =>
      obtain ⟨w, hw, hweq⟩ := ih (by simp)
      rw [maxPriority_cons]
      rcases le_total x.proposerPriority (maxPriority (y :: ys)) with hc | hc
      · exact ⟨w, List.mem_cons_of_mem x hw, by rw [hweq, max_eq_right hc]⟩
      · exact ⟨x, List.mem_cons_self x _, by rw [max_eq_left hc]⟩

lemma minPriority_mem : ∀ {l : List Validator}, l ≠ [] →
    ∃ v ∈ l, v.proposerPriority = minPriority l := by
  intro l
  induction l with
  | nil => intro h; exact absurd rfl h
  | cons x xs ih =>
    intro _
    cases xs with
    | nil => exact ⟨x, List.mem_cons_self x [], rfl⟩
    | cons y ys =>
      obtain ⟨w, hw, hweq⟩ := ih (by simp)
      rw [minPriority_cons]
      rcases le_total x.proposerPriority (minPriority (y :: ys)) with hc | hc
      · exact ⟨x, List.mem_cons_self x _, by rw [min_eq_left hc]⟩
      · exact ⟨w, List.mem_cons_of_mem x hw, by rw [hweq, min_eq_right hc]⟩

lemma minPriority_le_maxPriority {l : List Validator} (h : l ≠ []) :
    minPriority l ≤ maxPriority l := by
  obtain ⟨v, hv, _⟩ := maxPriority_mem h
  exact (minPriority_le hv).trans (le_maxPriority hv)

lemma maxPriority_map_mono (g : Int → Int) (hg : Monotone g) :
    ∀ {l : List Validator}, l ≠ [] →
      maxPriority (l.map (fun v => { v with proposerPriority := g v.proposerPriority })) =
        g (maxPriority l) := by
  intro l
  induction l with
  | nil => intro h; exact absurd rfl h
  | cons x xs ih =>
    intro _
    cases xs with
    | nil => rfl
    | cons y ys =>
      have ihy := ih (by simp)
      show max (g x.proposerPriority)
          (maxPriority ((y :: ys).map
            (fun v => { v with proposerPriority := g v.proposerPriority }))) =
        g (maxPriority (x :: y :: ys))
      rw [ihy, maxPriority_cons, hg.map_max]

lemma minPriority_map_mono (g : Int → Int) (hg : Monotone g) :
    ∀ {l : List Validator}, l ≠ [] →
      minPriority (l.map (fun v => { v with proposerPriority := g v.proposerPriority })) =
        g (minPriority l) := by
  intro l
  induction l with
  | nil => intro h; exact absurd rfl h
  | cons x xs ih =>
    intro _
    cases xs with
    | nil => rfl
    | cons y ys =>
      have ihy := ih (by simp)
      show min (g x.proposerPriority)
          (minPriority ((y :: ys).map
            (fun v => { v with proposerPriority := g v.proposerPriority }))) =
        g (minPriority (x :: y :: ys))
      rw [ihy, minPriority_cons, hg.map_min]

lemma sumPriorities_cons (x : Validator) (xs : List Validator) :
    sumPriorities (x :: xs) = x.proposerPriority + sumPriorities xs := by
  unfold sumPriorities prioritiesOf
  rw [List.map_cons, List.sum_cons]

lemma sumPriorities_le {l : List Validator} {M : Int}
    (h : ∀ v ∈ l, v.proposerPriority ≤ M) : sumPriorities l ≤ (l.length : Int) * M := by
  induction l with
  | nil => simp [sumPriorities, prioritiesOf]
  | cons x xs ih =>
    rw [sumPriorities_cons]
    have h1 := h x (List.mem_cons_self x xs)
    have h2 := ih (fun v hv => h v (List.mem_cons_of_mem x hv))
    rw [List.length_cons]
    push_cast
    linarith

lemma le_sumPriorities {l : List Validator} {m : Int}
    (h : ∀ v ∈ l, m ≤ v.proposerPriority) : (l.length : Int) * m ≤ sumPriorities l := by
  induction l with
  | nil => simp [sumPriorities, prioritiesOf]
  | cons x xs ih =>
    rw [sumPriorities_cons]
    have h1 := h x (List.mem_cons_self x xs)
    have h2 := ih (fun v hv => h v (List.mem_cons_of_mem x hv))
    rw [List.length_cons]
    push_cast
    linarith

lemma avg_between {l : List Validator} (h : l ≠ []) :
    minPriority l ≤ computeAvgProposerPriority l ∧
      computeAvgProposerPriority l ≤ maxPriority l := by
  have hlen : 0 < (l.length : Int) := by
    cases l with
    | nil => exact absurd rfl h
    | cons x xs => simp
  unfold computeAvgProposerPriority
  constructor
  · rw [Int.le_ediv_iff_mul_le hlen]
    have h0 : (l.length : Int) * minPriority l ≤ sumPriorities l :=
      le_sumPriorities (fun v hv => minPriority_le hv)
    linarith
  · have h1 : sumPriorities l ≤ (l.length : Int) * maxPriority l :=
      sumPriorities_le (fun v hv => le_maxPriority hv)
    have h2 := Int.ediv_le_ediv hlen h1
    rw [Int.mul_ediv_cancel_left _ hlen.ne'] at h2
    exact h2

/-! ### C2: shift and rescale invariants -/

lemma shift_exact {l : List Validator} (hl : l ≠ [])
    (hdiff : maxPriority l - minPriority l ≤ MaxInt64) :
    shiftByAvgProposerPriority l =
      l.map (fun v => { v with proposerPriority :=
        v.proposerPriority - computeAvgProposerPriority l }) := by
  unfold shiftByAvgProposerPriority
  dsimp only
  apply List.map_congr_left
  intro v hv
  have h1 := le_maxPriority hv
  have h2 := minPriority_le hv
  have h3 := (avg_between hl).1
  have h4 := (avg_between hl).2
  rw [safeSubClip_eq]
  · unfold MinInt64
    unfold MaxInt64 at hdiff
    omega
  · unfold MaxInt64 at hdiff ⊢
    omega

lemma sumPriorities_map_sub (c : Int) : ∀ (l : List Validator),
    sumPriorities (l.map (fun v => { v with proposerPriority := v.proposerPriority - c })) =
      sumPriorities l - (l.length : Int) * c := by
  intro l
  induction l with
  | nil => simp [sumPriorities, prioritiesOf]
  | cons x xs ih =>
    rw [List.map_cons, sumPriorities_cons, sumPriorities_cons, ih, List.length_cons]
    dsimp only
    push_cast
    ring

lemma shift_invariants {l : List Validator} {D : Int} (hl : l ≠ [])
    (hdiff : maxPriority l - minPriority l ≤ D) (hDM : D ≤ MaxInt64) :
    (maxPriority (shiftByAvgProposerPriority l) -
        minPriority (shiftByAvgProposerPriority l) ≤ D) ∧
      |sumPriorities (shiftByAvgProposerPriority l)| < (l.length : Int) := by
  have hex := shift_exact hl (hdiff.trans hDM)
  have hmono : Monotone (fun p : Int => p - computeAvgProposerPriority l) :=
    fun a b hab => by dsimp only; omega
  have hlen : 0 < (l.length : Int) := by
    cases l with
    | nil => exact absurd rfl hl
    | cons x xs => simp
  constructor
  · rw [hex, maxPriority_map_mono _ hmono hl, minPriority_map_mono _ hmono hl]
    omega
  · rw [hex, sumPriorities_map_sub]
    unfold computeAvgProposerPriority
    have h1 : sumPriorities l - (l.length : Int) *
        (sumPriorities l / (l.length : Int)) = sumPriorities l % (l.length : Int) :=
      (Int.emod_def _ _).symm
    rw [h1]
    have h2 := Int.emod_nonneg (sumPriorities l) hlen.ne'
    have h3 := Int.emod_lt_of_pos (sumPriorities l) hlen
    rw [abs_lt]
    exact ⟨by omega, h3⟩

lemma rescale_invariants {l : List Validator} {dm B : Int} (hl : l ≠ [])
    (hdm : 0 < dm) (hB : 0 ≤ B) (hB2 : 2 * B ≤ MaxInt64)
    (hbound : ∀ v ∈ l, -B ≤ v.proposerPriority ∧ v.proposerPriority ≤ B) :
    RescalePriorities l dm ≠ [] ∧
    (∀ v ∈ RescalePriorities l dm, -B ≤ v.proposerPriority ∧ v.proposerPriority ≤ B) ∧
    maxPriority (RescalePriorities l dm) - minPriority (RescalePriorities l dm) ≤ dm := by
  have hmaxB : maxPriority l ≤ B := by
    obtain ⟨v, hv, hveq⟩ := maxPriority_mem hl
    rw [← hveq]
    exact (hbound v hv).2
  have hminB : -B ≤ minPriority l := by
    obtain ⟨v, hv, hveq⟩ := minPriority_mem hl
    rw [← hveq]
    exact (hbound v hv).1
  have hmm := minPriority_le_maxPriority hl
  have hdexact : computeMaxMinPriorityDiffL l = maxPriority l - minPriority l := by
    unfold computeMaxMinPriorityDiffL
    rw [safeSubClip_eq]
    · unfold MinInt64
      unfold MaxInt64 at hB2
      omega
    · unfold MaxInt64 at hB2 ⊢
      omega
  have hre : RescalePriorities l dm =
      if dm < computeMaxMinPriorityDiffL l then
        l.map (fun v => { v with proposerPriority :=
          (Int.tdiv v.proposerPriority (Int.tdiv (computeMaxMinPriorityDiffL l + dm - 1) dm)) })
      else l := rfl
  rw [hre, hdexact]
  split
  · rename_i hlt
    have hnum : 0 ≤ maxPriority l - minPriority l + dm - 1 := by omega
    have hr_ediv := Int.tdiv_eq_ediv hnum hdm.le
    have hr0 : 0 < Int.tdiv (maxPriority l - minPriority l + dm - 1) dm := by
      rw [hr_ediv]
      rw [show (0:Int) < (maxPriority l - minPriority l + dm - 1) / dm ↔
        0 + 1 ≤ (maxPriority l - minPriority l + dm - 1) / dm from by omega]
      rw [Int.le_ediv_iff_mul_le hdm]
      omega
    have he := Int.ediv_add_emod (maxPriority l - minPriority l + dm - 1) dm
    have hm := Int.emod_lt_of_pos (maxPriority l - minPriority l + dm - 1) hdm
    have hrdm : maxPriority l - minPriority l ≤
        Int.tdiv (maxPriority l - minPriority l + dm - 1) dm * dm := by
      rw [hr_ediv, mul_comm]
      omega
    have hmono : Monotone (fun p : Int =>
        Int.tdiv p (Int.tdiv (maxPriority l - minPriority l + dm - 1) dm)) :=
      fun a b hab => tdiv_mono hab hr0
    refine ⟨?_, ?_, ?_⟩
    · intro hc
      exact hl (List.map_eq_nil_iff.mp hc)
    · intro v hv
      rw [List.mem_map] at hv
      obtain ⟨u, hu, huv⟩ := hv
      subst huv
      dsimp only
      exact tdiv_between hr0 (hbound u hu).1 (hbound u hu).2
    · rw [maxPriority_map_mono _ hmono hl, minPriority_map_mono _ hmono hl]
      exact tdiv_spread hmm hr0 hrdm
  · rename_i hge
    exact ⟨hl, hbound, by omega⟩

/-! ### C2: change-set bookkeeping -/

lemma sumPowers_cons (x : Validator) (xs : List Validator) :
    sumPowers (x :: xs) = x.stakingPower + sumPowers xs := by
  unfold sumPowers
  rw [List.map_cons, List.sum_cons]

lemma sumPowers_append (a b : List Validator) :
    sumPowers (a ++ b) = sumPowers a + sumPowers b := by
  unfold sumPowers
  rw [List.map_append, List.sum_append]

lemma sumPowers_nonneg {l : List Validator} (h : ∀ v ∈ l, 0 ≤ v.stakingPower) :
    0 ≤ sumPowers l := by
  induction l with
  | nil => exact le_refl _
  | cons x xs ih =>
    rw [sumPowers_cons]
    have h1 := h x (List.mem_cons_self x xs)
    have h2 := ih (fun v hv => h v (List.mem_cons_of_mem x hv))
    omega

lemma sumPowers_pos {l : List Validator} (hl : l ≠ []) (h : ∀ v ∈ l, 1 ≤ v.stakingPower) :
    1 ≤ sumPowers l := by
  cases l with
  | nil => exact absurd rfl hl
  | cons x xs =>
    rw [sumPowers_cons]
    have h1 := h x (List.mem_cons_self x xs)
    have h2 := sumPowers_nonneg (fun v hv => by
      have := h v (List.mem_cons_of_mem x hv)
      omega)
    omega

lemma sumPowers_perm {l m : List Validator} (h : l.Perm m) : sumPowers l = sumPowers m := by
  unfold sumPowers
  exact (h.map (fun v => v.stakingPower)).sum_eq

lemma sumPowers_sublist_le {l m : List Validator} (h : l.Sublist m) :
    (∀ v ∈ m, 0 ≤ v.stakingPower) → sumPowers l ≤ sumPowers m := by
  induction h with
  | slnil => intro _; exact le_refl _
  | cons a h ih =>
    intro hm
    have h1 := ih (fun v hv => hm v (List.mem_cons_of_mem a hv))
    have h2 := hm a (List.mem_cons_self a _)
    rw [sumPowers_cons]
    omega
  | cons₂ a h ih =>
    intro hm
    have h1 := ih (fun v hv => hm v (List.mem_cons_of_mem a hv))
    rw [sumPowers_cons, sumPowers_cons]
    omega

lemma sumPowers_subperm_le {l m : List Validator} (h : l.Subperm m)
    (hm : ∀ v ∈ m, 0 ≤ v.stakingPower) : sumPowers l ≤ sumPowers m := by
  obtain ⟨l2, hperm, hsub⟩ := h
  rw [← sumPowers_perm hperm]
  exact sumPowers_sublist_le hsub hm

lemma classifyLoop_perm : ∀ (prev : Option (List Nat)) (cs : List Validator)
    {u d : List Validator}, classifyLoop prev cs = .ok (u, d) → (u ++ d).Perm cs := by
  intro prev cs
  induction cs generalizing prev with
  | nil =>
    intro u d h
    unfold classifyLoop at h
    cases h
    exact List.Perm.refl _
  | cons c rest ih =>
    intro u d h
    unfold classifyLoop at h
    split at h
    · cases h
    · split at h
      · cases h
      · cases hcl : classifyLoop (some c.address) rest with
        | error e => rw [hcl] at h; cases h
        | ok pr =>
          obtain ⟨u2, d2⟩ := pr
          rw [hcl] at h
          dsimp only at h
          split at h
          · cases h
            have hp := ih (some c.address) hcl
            exact List.perm_middle.trans (hp.cons c)
          · cases h
            exact (ih (some c.address) hcl).cons c

lemma classifyLoop_powers : ∀ (prev : Option (List Nat)) (cs : List Validator)
    {u d : List Validator}, classifyLoop prev cs = .ok (u, d) →
    (∀ x ∈ u, 0 < x.stakingPower) ∧ (∀ x ∈ d, x.stakingPower = 0) := by
  intro prev cs
  induction cs generalizing prev with
  | nil =>
    intro u d h
    unfold classifyLoop at h
    cases h
    exact ⟨fun x hx => absurd hx (List.not_mem_nil x), fun x hx => absurd hx (List.not_mem_nil x)⟩
  | cons c rest ih =>
    intro u d h
    unfold classifyLoop at h
    split at h
    · cases h
    · rename_i hneg
      split at h
      · cases h
      · rename_i hnonneg
        cases hcl : classifyLoop (some c.address) rest with
        | error e => rw [hcl] at h; cases h
        | ok pr =>
          obtain ⟨u2, d2⟩ := pr
          rw [hcl] at h
          dsimp only at h
          obtain ⟨ih1, ih2⟩ := ih (some c.address) hcl
          split at h
          · rename_i hz
            cases h
            refine ⟨ih1, ?_⟩
            intro x hx
            rcases List.mem_cons.mp hx with h1 | h1
            · subst h1; exact hz
            · exact ih2 x h1
          · rename_i hnz
            cases h
            refine ⟨?_, ih2⟩
            intro x hx
            rcases List.mem_cons.mp hx with h1 | h1
            · subst h1
              omega
            · exact ih1 x h1

lemma lookupAddr_some : ∀ {l : List Validator} {a : List Nat} {v : Validator},
    lookupAddr l a = some v → v ∈ l ∧ v.address = a := by
  intro l
  induction l with
  | nil => intro a v h; cases h
  | cons x xs ih =>
    intro a v h
    unfold lookupAddr at h
    split at h
    · rename_i hx
      cases h
      exact ⟨List.mem_cons_self x xs, hx⟩
    · obtain ⟨h1, h2⟩ := ih h
      exact ⟨List.mem_cons_of_mem x h1, h2⟩

lemma verifyRemovals_ok : ∀ {ds : List Validator} {vals : ValidatorSet} {r : Int},
    verifyRemovals ds vals = .ok r →
      r = sumPowers (ds.map (matchedOf vals)) ∧
        ∀ x ∈ ds, getByAddress vals x.address ≠ none := by
  intro ds
  induction ds with
  | nil =>
    intro vals r h
    unfold verifyRemovals at h
    cases h
    exact ⟨rfl, fun x hx => absurd hx (List.not_mem_nil x)⟩
  | cons dd ds ih =>
    intro vals r h
    unfold verifyRemovals at h
    cases hga : getByAddress vals dd.address with
    | none => rw [hga] at h; cases h
    | some v =>
      rw [hga] at h
      dsimp only at h
      cases hvr : verifyRemovals ds vals with
      | error e => rw [hvr] at h; cases h
      | ok r2 =>
        rw [hvr] at h
        dsimp only at h
        cases h
        obtain ⟨ih1, ih2⟩ := ih hvr
        constructor
        · rw [List.map_cons, sumPowers_cons, ← ih1]
          have hm : matchedOf vals dd = v := by
            unfold matchedOf
            rw [hga]
            rfl
          rw [hm]
        · intro x hx
          rcases List.mem_cons.mp hx with h1 | h1
          · subst h1
            rw [hga]
            exact fun hc => Option.noConfusion hc
          · exact ih2 x h1

lemma verifyUpdatesLoop_ok_sum : ∀ {us : List Validator} {vals : ValidatorSet} {acc t : Int},
    verifyUpdatesLoop vals acc us = .ok t → t = acc + (us.map (deltaOf vals)).sum := by
  intro us
  induction us with
  | nil =>
    intro vals acc t h
    unfold verifyUpdatesLoop at h
    cases h
    simp
  | cons u us ih =>
    intro vals acc t h
    unfold verifyUpdatesLoop at h
    cases hsa : safeAdd acc (deltaOf vals u) with
    | mk s flag =>
      rw [hsa] at h
      cases flag with
      | true => dsimp only at h; cases h
      | false =>
        dsimp only at h
        split at h
        · cases h
        · have h1 := ih h
          have h2 := safeAdd_eq_of_ok hsa
          rw [List.map_cons, List.sum_cons]
          omega

lemma verifyUpdatesLoop_ok_le : ∀ {us : List Validator} {vals : ValidatorSet} {acc t : Int},
    verifyUpdatesLoop vals acc us = .ok t →
      t ≤ MaxTotalStakingPower ∨ (t = acc ∧ us = []) := by
  intro us
  induction us with
  | nil =>
    intro vals acc t h
    unfold verifyUpdatesLoop at h
    cases h
    exact Or.inr ⟨rfl, rfl⟩
  | cons u us ih =>
    intro vals acc t h
    unfold verifyUpdatesLoop at h
    cases hsa : safeAdd acc (deltaOf vals u) with
    | mk s flag =>
      rw [hsa] at h
      cases flag with
      | true => dsimp only at h; cases h
      | false =>
        dsimp only at h
        split at h
        · cases h
        · rename_i hle
          rcases ih h with h1 | ⟨h1, _⟩
          · exact Or.inl h1
          · exact Or.inl (by omega)

lemma deltaOf_eq_some {vals : ValidatorSet} {u v : Validator}
    (h : getByAddress vals u.address = some v) :
    deltaOf vals u = u.stakingPower - v.stakingPower := by
  unfold deltaOf
  rw [h]

lemma deltaOf_eq_none {vals : ValidatorSet} {u : Validator}
    (h : getByAddress vals u.address = none) : deltaOf vals u = u.stakingPower := by
  unfold deltaOf
  rw [h]

lemma sum_delta_decomp : ∀ (us : List Validator) (vals : ValidatorSet),
    (us.map (deltaOf vals)).sum =
      sumPowers us - sumPowers
        ((us.filter (fun u => (getByAddress vals u.address).isSome)).map (matchedOf vals)) := by
  intro us vals
  induction us with
  | nil => simp [sumPowers]
  | cons u us ih =>
    rw [List.map_cons, List.sum_cons, sumPowers_cons, List.filter_cons]
    cases hga : getByAddress vals u.address with
    | none =>
      rw [deltaOf_eq_none hga, ih]
      rw [if_neg (by simp : ¬ ((none : Option Validator).isSome = true))]
      ring
    | some v =>
      rw [deltaOf_eq_some hga, ih]
      rw [if_pos (show ((some v).isSome = true) from rfl)]
      rw [List.map_cons, sumPowers_cons]
      have hm : matchedOf vals u = v := by
        unfold matchedOf
        rw [hga]
        rfl
      rw [hm]
      ring

lemma sumPowers_mergeByAddr_le : ∀ (b u : List Validator),
    (∀ x ∈ b, 0 ≤ x.stakingPower) → (∀ x ∈ u, 0 ≤ x.stakingPower) →
    sumPowers (mergeByAddr b u) ≤ sumPowers b + sumPowers u := by
  intro b
  induction b with
  | nil =>
    intro u _ _
    unfold mergeByAddr
    have h0 : sumPowers ([] : List Validator) = 0 := rfl
    omega
  | cons v bs ih =>
    intro u hb hu
    have hbv := hb v (List.mem_cons_self v bs)
    have hbs : ∀ x ∈ bs, 0 ≤ x.stakingPower := fun x hx => hb x (List.mem_cons_of_mem v hx)
    have hpre : sumPowers (u.takeWhile (fun w => lexLt w.address v.address)) ≤ sumPowers u :=
      sumPowers_sublist_le (List.takeWhile_sublist _) hu
    have hprenn : 0 ≤ sumPowers (u.takeWhile (fun w => lexLt w.address v.address)) :=
      sumPowers_nonneg (fun x hx => hu x ((List.takeWhile_sublist _).subset hx))
    rcases hdw : u.dropWhile (fun w => lexLt w.address v.address) with _ | ⟨w, ws⟩
    · have he : mergeByAddr (v :: bs) u =
          u.takeWhile (fun w => lexLt w.address v.address) ++ v :: mergeByAddr bs [] := by
        conv_lhs => rw [mergeByAddr]
        rw [hdw]
      rw [he, sumPowers_append, sumPowers_cons]
      have hrec := ih [] hbs (fun x hx => absurd hx (List.not_mem_nil x))
      have h0 : sumPowers ([] : List Validator) = 0 := rfl
      rw [sumPowers_cons]
      omega
    · have hpart : sumPowers (u.takeWhile (fun w => lexLt w.address v.address)) +
          (w.stakingPower + sumPowers ws) = sumPowers u := by
        conv_rhs => rw [← List.takeWhile_append_dropWhile
          (fun w => lexLt w.address v.address) u]
        rw [sumPowers_append, hdw, sumPowers_cons]
      have hwu : ∀ x ∈ w :: ws, 0 ≤ x.stakingPower := fun x hx =>
        hu x ((List.dropWhile_sublist _).subset (hdw ▸ hx))
      have hws : ∀ x ∈ ws, 0 ≤ x.stakingPower := fun x hx =>
        hwu x (List.mem_cons_of_mem w hx)
      have hw0 := hwu w (List.mem_cons_self w ws)
      by_cases haddr : w.address = v.address
      · have he : mergeByAddr (v :: bs) u =
            (if w.address = v.address then
              u.takeWhile (fun x => lexLt x.address v.address) ++ w :: mergeByAddr bs ws
            else
              u.takeWhile (fun x => lexLt x.address v.address) ++
                v :: mergeByAddr bs (w :: ws)) := by
          conv_lhs => rw [mergeByAddr]
          rw [hdw]
        rw [he, if_pos haddr, sumPowers_append, sumPowers_cons, sumPowers_cons]
        have hrec := ih ws hbs hws
        omega
      · have he : mergeByAddr (v :: bs) u =
            (if w.address = v.address then
              u.takeWhile (fun x => lexLt x.address v.address) ++ w :: mergeByAddr bs ws
            else
              u.takeWhile (fun x => lexLt x.address v.address) ++
                v :: mergeByAddr bs (w :: ws)) := by
          conv_lhs => rw [mergeByAddr]
          rw [hdw]
        rw [he, if_neg haddr, sumPowers_append, sumPowers_cons, sumPowers_cons]
        have hrec := ih (w :: ws) hbs hwu
        rw [sumPowers_cons] at hrec
        omega

lemma cnp_mem {ups : List Validator} {vals : ValidatorSet} {tp : Int} {x : Validator}
    (hx : x ∈ computeNewPriorities ups vals tp) :
    ∃ u ∈ ups, x.address = u.address ∧ x.stakingPower = u.stakingPower ∧
      (x.proposerPriority = -(tp + Int.tdiv tp 8) ∨
        ∃ v ∈ vals.validators, x.proposerPriority = v.proposerPriority) := by
  unfold computeNewPriorities at hx
  rw [List.mem_map] at hx
  obtain ⟨u, hu, hxu⟩ := hx
  cases hga : getByAddress vals u.address with
  | none =>
    rw [hga] at hxu
    dsimp only at hxu
    subst hxu
    exact ⟨u, hu, rfl, rfl, Or.inl rfl⟩
  | some v =>
    rw [hga] at hxu
    dsimp only at hxu
    subst hxu
    have hv := (lookupAddr_some hga).1
    exact ⟨u, hu, rfl, rfl, Or.inr ⟨v, hv, rfl⟩⟩

lemma sumPowers_cnp (ups : List Validator) (vals : ValidatorSet) (tp : Int) :
    sumPowers (computeNewPriorities ups vals tp) = sumPowers ups := by
  induction ups with
  | nil => rfl
  | cons u us ih =>
    unfold computeNewPriorities at ih ⊢
    rw [List.map_cons, sumPowers_cons, ih, sumPowers_cons]
    cases hga : getByAddress vals u.address with
    | none => rfl
    | some v => rfl

lemma computeTotal_exact : ∀ (l : List Validator) (acc : Int), 0 ≤ acc →
    (∀ v ∈ l, 0 ≤ v.stakingPower) → acc + sumPowers l ≤ MaxInt64 →
    List.foldl (fun a v => safeAddClip a v.stakingPower) acc l = acc + sumPowers l := by
  intro l
  induction l with
  | nil =>
    intro acc _ _ _
    have h0 : sumPowers ([] : List Validator) = 0 := rfl
    rw [List.foldl_nil, h0, add_zero]
  | cons x xs ih =>
    intro acc hacc hpow hle
    have hx := hpow x (List.mem_cons_self x xs)
    have hxs : ∀ v ∈ xs, 0 ≤ v.stakingPower := fun v hv => hpow v (List.mem_cons_of_mem x hv)
    have hnn := sumPowers_nonneg hxs
    rw [sumPowers_cons] at hle
    have hstep : safeAddClip acc x.stakingPower = acc + x.stakingPower := by
      apply safeAddClip_eq
      · unfold MinInt64
        omega
      · unfold MaxInt64 at hle ⊢
        omega
    rw [List.foldl_cons, hstep, ih (acc + x.stakingPower) (by omega) hxs (by omega),
      sumPowers_cons]
    ring

lemma computeTotal_eq_sum {l : List Validator} (hpow : ∀ v ∈ l, 0 ≤ v.stakingPower)
    (hle : sumPowers l ≤ MaxInt64) : computeTotal l = sumPowers l := by
  unfold computeTotal
  have := computeTotal_exact l 0 (le_refl 0) hpow (by omega)
  rw [this, zero_add]

lemma wf_total {vals : ValidatorSet} (hwf : WellFormedSet vals) :
    TotalStakingPower vals = sumPowers vals.validators := by
  obtain ⟨hpow, _, hcache, _⟩ := hwf
  unfold TotalStakingPower
  split
  · rename_i hz
    rw [hcache] at hz
    cases hv : vals.validators with
    | nil => rfl
    | cons x xs =>
      exfalso
      have hp2 : ∀ v ∈ x :: xs, 1 ≤ v.stakingPower := fun v hvv => hpow v (hv ▸ hvv)
      have hpos := sumPowers_pos (by simp) hp2
      rw [hv] at hz
      omega
  · exact hcache

lemma sumPowers_eq_zero {l : List Validator} (h : ∀ x ∈ l, x.stakingPower = 0) :
    sumPowers l = 0 := by
  induction l with
  | nil => rfl
  | cons x xs ih =>
    rw [sumPowers_cons, h x (List.mem_cons_self x xs),
      ih (fun v hv => h v (List.mem_cons_of_mem x hv))]
    ring

lemma rescale_length (l : List Validator) (dm : Int) :
    (RescalePriorities l dm).length = l.length := by
  have hre : RescalePriorities l dm =
      if dm < computeMaxMinPriorityDiffL l then
        l.map (fun v => { v with proposerPriority :=
          (Int.tdiv v.proposerPriority (Int.tdiv (computeMaxMinPriorityDiffL l + dm - 1) dm)) })
      else l := rfl
  rw [hre]
  split
  · rw [List.length_map]
  · rfl

lemma shift_length (l : List Validator) :
    (shiftByAvgProposerPriority l).length = l.length := by
  unfold shiftByAvgProposerPriority
  rw [List.length_map]

lemma safeAddClip_pos_step {acc p : Int} (h1 : 1 ≤ p) (h2 : 0 ≤ acc) (_h3 : acc ≤ MaxInt64) :
    1 ≤ safeAddClip acc p ∧ safeAddClip acc p ≤ MaxInt64 := by
  unfold safeAddClip safeAdd
  by_cases hc1 : 0 < p ∧ MaxInt64 - p < acc
  · rw [if_pos hc1]
    dsimp only
    rw [if_neg (by omega : ¬ p < 0)]
    unfold MaxInt64
    omega
  · rw [if_neg hc1]
    rw [if_neg (by rintro ⟨hp, _⟩; omega)]
    dsimp only
    constructor
    · omega
    · omega

lemma foldl_clip_pos : ∀ (l : List Validator) (acc : Int), 1 ≤ acc → acc ≤ MaxInt64 →
    (∀ v ∈ l, 1 ≤ v.stakingPower) →
    1 ≤ List.foldl (fun a v => safeAddClip a v.stakingPower) acc l := by
  intro l
  induction l with
  | nil => intro acc h1 _ _; exact h1
  | cons x xs ih =>
    intro acc h1 h2 h3
    rw [List.foldl_cons]
    have hstep := safeAddClip_pos_step (h3 x (List.mem_cons_self x xs)) (by omega) h2
    exact ih _ hstep.1 hstep.2 (fun v hv => h3 v (List.mem_cons_of_mem x hv))

lemma computeTotal_pos {l : List Validator} (hl : l ≠ [])
    (h : ∀ v ∈ l, 1 ≤ v.stakingPower) : 1 ≤ computeTotal l := by
  cases l with
  | nil => exact absurd rfl hl
  | cons x xs =>
    unfold computeTotal
    rw [List.foldl_cons]
    have hstep := safeAddClip_pos_step (h x (List.mem_cons_self x xs))
      (le_refl 0) (by unfold MaxInt64; omega)
    exact foldl_clip_pos xs _ hstep.1 hstep.2 (fun v hv => h v (List.mem_cons_of_mem x hv))

lemma diff_le_of_bounds {l : List Validator} {B : Int} (hl : l ≠ [])
    (h : ∀ v ∈ l, -B ≤ v.proposerPriority ∧ v.proposerPriority ≤ B) :
    maxPriority l - minPriority l ≤ 2 * B := by
  obtain ⟨v, hv, hveq⟩ := maxPriority_mem hl
  obtain ⟨w, hw, hweq⟩ := minPriority_mem hl
  have h1 := (h v hv).2
  have h2 := (h w hw).1
  omega

lemma update_success_invariants (vals S2 : ValidatorSet) (changes ups dels : List Validator)
    (removed tp : Int)
    (hwf : WellFormedSet vals)
    (hnodup : (changes.map (fun v => v.address)).Nodup)
    (hpc : processChanges changes = .ok (ups, dels))
    (hvr : verifyRemovals dels vals = .ok removed)
    (hvu : verifyUpdates ups vals removed = .ok tp)
    (hS2 : S2 = ⟨shiftByAvgProposerPriority (RescalePriorities
        (List.insertionSort PowLe (applyUpdates (applyRemovals vals.validators dels)
          (computeNewPriorities ups vals tp)))
        (PriorityWindowSizeFactor * computeTotal (applyUpdates
          (applyRemovals vals.validators dels) (computeNewPriorities ups vals tp)))),
      computeTotal (applyUpdates (applyRemovals vals.validators dels)
        (computeNewPriorities ups vals tp))⟩)
    (hne : S2.validators ≠ []) :
    |sumPriorities S2.validators| < (S2.validators.length : Int) ∧
    maxPriority S2.validators - minPriority S2.validators ≤ 2 * TotalStakingPower S2 := by
  subst hS2
  dsimp only at hne ⊢
  have htotal := wf_total hwf
  obtain ⟨hwpow, hwprio, hwcache, hwnodup⟩ := hwf
  set l1 := applyRemovals vals.validators dels with hl1
  set ups2 := computeNewPriorities ups vals tp with hups2
  set l2 := applyUpdates l1 ups2 with hl2
  set cache := computeTotal l2 with hcache
  set l3 := List.insertionSort PowLe l2 with hl3
  set dm := PriorityWindowSizeFactor * cache with hdm
  set B : Int := 2305843009213693952 with hB
  unfold processChanges at hpc
  have hperm : (ups ++ dels).Perm changes :=
    (classifyLoop_perm none _ hpc).trans (List.perm_insertionSort _ _)
  obtain ⟨hupos, hdz⟩ := classifyLoop_powers none _ hpc
  have hAddrNodup : ((ups ++ dels).map (fun v => v.address)).Nodup :=
    ((hperm.map (fun v => v.address)).nodup_iff).mpr hnodup
  obtain ⟨hrem, hdelsSome⟩ := verifyRemovals_ok hvr
  unfold verifyUpdates at hvu
  have htps := verifyUpdatesLoop_ok_sum hvu
  have htple := verifyUpdatesLoop_ok_le hvu
  have hdsum : ((List.insertionSort (DeltaLe vals) ups).map (deltaOf vals)).sum
      = (ups.map (deltaOf vals)).sum :=
    ((List.perm_insertionSort (DeltaLe vals) ups).map _).sum_eq
  rw [hdsum, sum_delta_decomp] at htps
  set fl := ups.filter (fun u => (getByAddress vals u.address).isSome) with hfl
  set M := (dels ++ fl).map (matchedOf vals) with hM
  have hcdSome : ∀ c ∈ dels ++ fl, getByAddress vals c.address ≠ none := by
    intro c hc
    rcases List.mem_append.mp hc with h1 | h1
    · exact hdelsSome c h1
    · intro hcn
      have h2 := (List.mem_filter.mp h1).2
      rw [hcn] at h2
      exact absurd h2 (by decide)
  have hMaddr : M.map (fun v => v.address) = (dels ++ fl).map (fun v => v.address) := by
    rw [hM, List.map_map]
    apply List.map_congr_left
    intro c hc
    cases hga : getByAddress vals c.address with
    | none => exact absurd hga (hcdSome c hc)
    | some v =>
      show (matchedOf vals c).address = c.address
      unfold matchedOf
      rw [hga]
      exact (lookupAddr_some hga).2
  have hMnodup : M.Nodup := by
    apply List.Nodup.of_map (fun v => v.address)
    rw [hMaddr]
    have hsub : (dels ++ fl).Sublist (dels ++ ups) :=
      List.Sublist.append_left (List.filter_sublist _) dels
    have hnd2 : ((dels ++ ups).map (fun v => v.address)).Nodup :=
      ((((List.perm_append_comm : (dels ++ ups).Perm (ups ++ dels))).map
        (fun v => v.address)).nodup_iff).mpr hAddrNodup
    exact hnd2.sublist (hsub.map (fun v => v.address))
  have hMsub : ∀ x ∈ M, x ∈ vals.validators := by
    intro x hx
    rw [hM, List.mem_map] at hx
    obtain ⟨c, hc, hcx⟩ := hx
    cases hga : getByAddress vals c.address with
    | none => exact absurd hga (hcdSome c hc)
    | some v =>
      rw [← hcx]
      unfold matchedOf
      rw [hga]
      exact (lookupAddr_some hga).1
  have hMpow : ∀ x ∈ M, 1 ≤ x.stakingPower := fun x hx => hwpow x (hMsub x hx)
  have hMle : sumPowers M ≤ sumPowers vals.validators :=
    sumPowers_subperm_le (List.Nodup.subperm hMnodup hMsub)
      (fun v hv => by have := hwpow v hv; omega)
  have hMsplit : sumPowers M =
      sumPowers (dels.map (matchedOf vals)) + sumPowers (fl.map (matchedOf vals)) := by
    rw [hM, List.map_append, sumPowers_append]
  have hupnn : 0 ≤ sumPowers ups := sumPowers_nonneg (fun x hx => (hupos x hx).le)
  have htp0 : 0 ≤ tp := by
    rw [htps, htotal, hrem]
    omega
  have hups2prio : ∀ x ∈ ups2, -B ≤ x.proposerPriority ∧ x.proposerPriority ≤ B := by
    rcases htple with htpM | ⟨_, hnil⟩
    · have hmagic : -B ≤ -(tp + Int.tdiv tp 8) ∧ -(tp + Int.tdiv tp 8) ≤ B := by
        have hm1 := Int.tdiv_nonneg htp0 (by omega : (0:Int) ≤ 8)
        have hm2 := tdiv_le_self_of_nonneg htp0 (by omega : (0:Int) < 8)
        unfold MaxTotalStakingPower at htpM
        constructor <;> omega
      intro x hx
      rw [hups2] at hx
      obtain ⟨u, hu, _, _, hpr⟩ := cnp_mem hx
      rcases hpr with h2 | ⟨v, hv, h2⟩
      · rw [h2]
        exact hmagic
      · rw [h2]
        have := hwprio v hv
        constructor <;> omega
    · have hupsnil : ups = [] := by
        have hlen := (List.perm_insertionSort (DeltaLe vals) ups).length_eq
        rw [hnil] at hlen
        exact List.eq_nil_of_length_eq_zero hlen.symm
      intro x hx
      rw [hups2, hupsnil] at hx
      simp [computeNewPriorities] at hx
  have hl1mem : ∀ x ∈ l1, x ∈ vals.validators := by
    intro x hx
    rw [hl1] at hx
    unfold applyRemovals at hx
    exact List.mem_of_mem_filter hx
  have hl2mem : ∀ x ∈ l2, x ∈ vals.validators ∨ x ∈ ups2 := by
    intro x hx
    rw [hl2] at hx
    unfold applyUpdates at hx
    rcases mem_mergeByAddr _ _ _ hx with h1 | h1
    · exact Or.inl (hl1mem x ((List.perm_insertionSort AddrLe l1).mem_iff.mp h1))
    · exact Or.inr h1
  have hl2pow : ∀ x ∈ l2, 1 ≤ x.stakingPower := by
    intro x hx
    rcases hl2mem x hx with h1 | h1
    · exact hwpow x h1
    · rw [hups2] at h1
      obtain ⟨u, hu, _, hp, _⟩ := cnp_mem h1
      have := hupos u hu
      omega
  have hl2prio : ∀ x ∈ l2, -B ≤ x.proposerPriority ∧ x.proposerPriority ≤ B := by
    intro x hx
    rcases hl2mem x hx with h1 | h1
    · have := hwprio x h1
      constructor <;> omega
    · exact hups2prio x h1
  have hl5len : (shiftByAvgProposerPriority (RescalePriorities l3 dm)).length = l2.length := by
    rw [shift_length, rescale_length, hl3]
    exact (List.perm_insertionSort PowLe l2).length_eq
  have hl2ne : l2 ≠ [] := by
    intro hc
    apply hne
    have hz : (shiftByAvgProposerPriority (RescalePriorities l3 dm)).length = 0 := by
      rw [hl5len, hc]
      rfl
    exact List.eq_nil_of_length_eq_zero hz
  have hcache_pos : 1 ≤ cache := by
    rw [hcache]
    exact computeTotal_pos hl2ne hl2pow
  have hl3ne : l3 ≠ [] := by
    intro hc
    apply hl2ne
    have hlen := (List.perm_insertionSort PowLe l2).length_eq
    rw [← hl3, hc] at hlen
    exact List.eq_nil_of_length_eq_zero hlen.symm
  have hl3prio : ∀ v ∈ l3, -B ≤ v.proposerPriority ∧ v.proposerPriority ≤ B := by
    intro v hv
    rw [hl3] at hv
    exact hl2prio v ((List.perm_insertionSort PowLe l2).mem_iff.mp hv)
  have hdm0 : 0 < dm := by
    rw [hdm]
    unfold PriorityWindowSizeFactor
    omega
  obtain ⟨hl4ne, hl4bound, hl4diff⟩ :=
    rescale_invariants hl3ne hdm0 (by omega : (0:Int) ≤ B)
      (by unfold MaxInt64; omega) hl3prio
  have h2B : maxPriority (RescalePriorities l3 dm) -
      minPriority (RescalePriorities l3 dm) ≤ 2 * B :=
    diff_le_of_bounds hl4ne hl4bound
  have hdiffmin : maxPriority (RescalePriorities l3 dm) -
      minPriority (RescalePriorities l3 dm) ≤ min dm (2 * B) :=
    le_min hl4diff h2B
  have hminM : min dm (2 * B) ≤ MaxInt64 := by
    have hr := min_le_right dm (2 * B)
    unfold MaxInt64
    omega
  obtain ⟨hwindow, habs⟩ := shift_invariants hl4ne hdiffmin hminM
  constructor
  · rw [shift_length]
    exact habs
  · have htsp : TotalStakingPower
        ⟨shiftByAvgProposerPriority (RescalePriorities l3 dm), cache⟩ = cache := by
      unfold TotalStakingPower
      rw [if_neg (by dsimp only; omega)]
    rw [htsp]
    have hw2 := le_trans hwindow (min_le_left dm (2 * B))
    rw [hdm] at hw2
    unfold PriorityWindowSizeFactor at hw2
    exact hw2

/-- C2 amended: after a successful non-empty UpdateWithChangeSet on a
well-formed set whose changes have distinct addresses, both invariants
hold on the non-empty result: the sum of priorities is smaller than the
member count in absolute value, and the priority spread is at most twice
the total staking power. The engine itself keeps the tentative total
within MaxTotalStakingPower, so no cap on the changes is assumed. (After
IncrementProposerPriority the spread invariant fails: see the
counterexample.) -/
theorem C2_amended_update_invariants (vals S2 : ValidatorSet) (changes : List Validator)
    (hwf : WellFormedSet vals)
    (hcne : changes ≠ [])
    (hnodup : (changes.map (fun v => v.address)).Nodup)
    (h : UpdateWithChangeSet vals changes = (S2, none))
    (hne : S2.validators ≠ []) :
    |sumPriorities S2.validators| < (S2.validators.length : Int) ∧
    maxPriority S2.validators - minPriority S2.validators ≤ 2 * TotalStakingPower S2 := by
  unfold UpdateWithChangeSet updateWithChangeSetRun at h
  rw [if_neg hcne] at h
  cases hpc : processChanges changes with
  | error e =>
    rw [hpc] at h
    exact Option.noConfusion (congrArg Prod.snd h)
  | ok pr =>
    obtain ⟨ups, dels⟩ := pr
    rw [hpc] at h
    dsimp only at h
    rw [if_neg (by simp)] at h
    cases hvr : verifyRemovals dels vals with
    | error e =>
      rw [hvr] at h
      exact Option.noConfusion (congrArg Prod.snd h)
    | ok removed =>
      rw [hvr] at h
      dsimp only at h
      cases hvu : verifyUpdates ups vals removed with
      | error e =>
        rw [hvu] at h
        exact Option.noConfusion (congrArg Prod.snd h)
      | ok tp =>
        rw [hvu] at h
        dsimp only at h
        by_cases hcnd : numNewValidators ups vals = 0 ∧ vals.validators.length = dels.length
        · rw [if_pos hcnd] at h
          exact Option.noConfusion (congrArg Prod.snd h)
        · rw [if_neg hcnd] at h
          exact update_success_invariants vals S2 changes ups dels removed tp hwf hnodup
            hpc hvr hvu (congrArg Prod.fst h).symm hne

/-- Concrete instance of C2 amended: adding one validator to a well-formed
two-member set satisfies both invariants for the result. -/
theorem C2_amended_update_invariants_witness :
    |sumPriorities c2wS.validators| < (c2wS.validators.length : Int) ∧
    maxPriority c2wS.validators - minPriority c2wS.validators ≤ 2 * TotalStakingPower c2wS :=
  C2_amended_update_invariants c2wBase c2wS c2wChanges (by decide) (by decide) (by decide)
    (by decide) (by decide)
